import Mathlib

/-!
# Move generation of `abra` (`src/game_moves.cpp`)

A shallow embedding of `game::get_attacks`, `game::under_attack`,
`game::get_moves(square)` and `game::get_moves(color)`, followed by the
properties proved about them.

Bitboards are natural numbers read as 64-bit words: bit `i` stands for
square `i`.  The operations that could leave the 64-bit range (`~`, `<<`)
are reduced modulo `2^64`.  The code never inspects a bit above 63.
-/

namespace abra

/-! ## Data model -/

/-- A 64-bit occupancy mask, one bit per square. -/
abbrev bitboard := Nat

/-- A square index, 0 to 63. -/
abbrev square := Nat

inductive color where
  | white
  | black
deriving DecidableEq

inductive piece_type where
  | empty
  | pawn
  | knight
  | bishop
  | rook
  | queen
  | king
deriving DecidableEq

structure piece where
  pcolor : color
  ptype : piece_type
deriving DecidableEq

/-- Modelled from the spec: the `move` type declared in `game.h` (not under
`src/`), "a triple (origin square, destination square, optional promotion
piece)".  `moves.emplace_back(i, p)` builds a move without promotion and
`moves.emplace_back(i, p, piece{c, promote})` one with a promotion. -/
structure move where
  origin : square
  destination : square
  promotion : Option piece
deriving DecidableEq

/-- Modelled from the spec: the board storage type of `game.h` (not under
`src/`), "supplying piece lookup by square and per-color/per-type
bitboards".  The lookup `get_piece` is kept as a table of its own, since
its code is not available. -/
structure board_t where
  pawn : bitboard
  knight : bitboard
  bishop : bitboard
  rook : bitboard
  queen : bitboard
  king : bitboard
  white : bitboard
  black : bitboard
  get_piece : square → piece

/-- Modelled from the spec: the castling-rights tracker of `game.h`,
`get_castle_rights(side) -> (bool short, bool long)`. -/
structure castling_t where
  get_castle_rights : color → Bool × Bool

/-- The state read by the member functions of `game`. -/
structure game where
  board : board_t
  castling : castling_t

/-- The per-piece-type generators of `movement.h` (not under `src/`), taken
as parameters: each maps an input bitboard to a reachable-squares bitboard. -/
structure movement where
  get_pawn_attacks : bitboard → color → bitboard
  get_pawn_moves : bitboard → color → bitboard
  get_knight_moves : bitboard → bitboard
  get_bishop_moves : bitboard → bitboard
  get_rook_moves : bitboard → bitboard
  get_queen_moves : bitboard → bitboard
  get_king_moves : bitboard → bitboard

/-! ## Helpers declared outside `src/` -/

/-- Modelled from the spec: `test_bit(b, i)`, whether bit `i` of `b` is set
("bit index `i` (0–63) represents a board square"). -/
def test_bit (b : bitboard) (i : square) : Bool := Nat.testBit b i

/-- Modelled from the spec: `to_bitboard(i)`, the singleton bitboard of
square `i`, as a 64-bit word. -/
def to_bitboard (i : square) : bitboard := (1 <<< i) % 2 ^ 64

/-- Modelled from the spec: `get_row(square)` "maps a square to its rank
(0–7) under the same numbering convention used for bitboards"; rank 0 holds
squares 0 to 7 (the promotion rank of white, whose king starts on 60). -/
def get_row (p : square) : Nat := p / 8

/-- Modelled from the spec: `get_colorb(c)`, the occupancy bitboard of side
`c` ("per-color occupancy bitboard accessors"). -/
def get_colorb (g : game) (c : color) : bitboard :=
  match c with
  | color.white => g.board.white
  | color.black => g.board.black

/-- Modelled from the spec: `get_opposite_color(c)`, the other side. -/
def get_opposite_color (c : color) : color :=
  match c with
  | color.white => color.black
  | color.black => color.white

/-- The operator `~` on a 64-bit word. -/
def bb_not (b : bitboard) : bitboard := 2 ^ 64 - 1 - b % 2 ^ 64

/-! ## `game::get_attacks` and `game::under_attack` -/

/-- Embedding of `bitboard game::get_attacks(color c) const`. -/
def get_attacks (mv : movement) (g : game) (c : color) : bitboard :=
  let attacks : bitboard := 0
  let colorb := get_colorb g c
  let attacks := attacks ||| mv.get_pawn_attacks (colorb &&& g.board.pawn) c
  let attacks := attacks ||| mv.get_knight_moves (colorb &&& g.board.knight)
  let attacks := attacks ||| mv.get_bishop_moves (colorb &&& (g.board.bishop ||| g.board.queen))
  let attacks := attacks ||| mv.get_rook_moves (colorb &&& (g.board.rook ||| g.board.queen))
  let attacks := attacks ||| mv.get_king_moves (colorb &&& g.board.king)
  attacks

/-- Embedding of `bool game::under_attack(const bitboard &squares, color c) const`:
the conversion of `squares & get_attacks(c)` to `bool`. -/
def under_attack (mv : movement) (g : game) (squares : bitboard) (c : color) : Bool :=
  decide (squares &&& get_attacks mv g c ≠ 0)

/-! ## `game::get_moves(square)` -/

/-- Embedding of `bitboard game::get_moves(square i) const`.  The `assert(false)` after
the switch, reached for `piece_type::empty`, is the result `none`. -/
def get_moves_square (mv : movement) (g : game) (i : square) : Option bitboard :=
  let x := g.board.get_piece i
  let b := to_bitboard i
  match x.ptype with
  | piece_type.pawn => some (mv.get_pawn_moves b x.pcolor)
  | piece_type.knight => some (mv.get_knight_moves b)
  | piece_type.bishop => some (mv.get_bishop_moves b)
  | piece_type.rook => some (mv.get_rook_moves b)
  | piece_type.queen => some (mv.get_queen_moves b)
  | piece_type.king => some (mv.get_king_moves b)
  | piece_type.empty => none

/-! ## `game::get_moves(color)` -/

/-- The static table `pawn_promotions`. -/
def pawn_promotions : List piece_type :=
  [piece_type.knight, piece_type.bishop, piece_type.rook, piece_type.queen]

/-- The local `last_row` of `get_moves(color)`. -/
def last_row (c : color) : Nat := if c = color.white then 0 else 7

/-- The local `king_sq` of `get_moves(color)`, an `int` in the source. -/
def king_sq (c : color) : Nat := if c = color.white then 60 else 4

/-- Body of the inner loop `for (square p = 0; p < 64; p++)`: what one
destination `p` adds to `moves`. -/
def emit_destination (g : game) (c : color) (i : square) (mvb : bitboard)
    (moves : List move) (p : square) : List move :=
  if test_bit mvb p then
    if get_row p = last_row c && test_bit g.board.pawn i then
      pawn_promotions.foldl (fun ms promote => ms ++ [move.mk i p (some (piece.mk c promote))]) moves
    else
      moves ++ [move.mk i p none]
  else
    moves

/-- Body of the outer loop `for (square i = 0; i < 64; i++)`. -/
def emit_square (mv : movement) (g : game) (c : color)
    (moves : List move) (i : square) : Option (List move) :=
  let colorb := get_colorb g c
  if !test_bit colorb i then
    some moves
  else do
    let mvb ← get_moves_square mv g i
    let mvb := mvb &&& bb_not colorb
    pure ((List.range 64).foldl (emit_destination g c i mvb) moves)

/-- The per-square loop of `get_moves(color)` (lines 53 to 68), started on
the empty vector `moves`. -/
def per_square_loop (mv : movement) (g : game) (c : color) : Option (List move) :=
  (List.range 64).foldlM (emit_square mv g c) []

/-- The lambda `add_castling`; `attacks`, `occupied`, `king_sq` and `moves`
are its captures. -/
def add_castling (attacks occupied : bitboard) (ksq : square) (moves : List move)
    (safe empty : bitboard) (dir : Int) : List move :=
  if attacks &&& safe ≠ 0 then moves
  else if occupied &&& empty ≠ 0 then moves
  else moves ++ [move.mk ksq (Int.toNat ((ksq : Int) + 2 * dir)) none]

/-- The part of `get_moves(color)` after the loop ("add castling
explicitly", lines 70 to 92), applied to the vector built by the loop. -/
def castling_appendix (mv : movement) (g : game) (c : color) (moves : List move) : List move :=
  let attacks := get_attacks mv g (get_opposite_color c)
  let rights := g.castling.get_castle_rights c
  let sc := rights.1
  let lc := rights.2
  let ksq := king_sq c
  if !(sc || lc) || test_bit attacks ksq then moves
  else
    let occupied := g.board.black ||| g.board.white
    let moves :=
      if sc then
        add_castling attacks occupied ksq moves
          (to_bitboard (ksq + 1) ||| to_bitboard (ksq + 2))
          (to_bitboard (ksq + 1) ||| to_bitboard (ksq + 2)) 1
      else moves
    let moves :=
      if lc then
        add_castling attacks occupied ksq moves
          (to_bitboard (ksq - 1) ||| to_bitboard (ksq - 2))
          (to_bitboard (ksq - 1) ||| to_bitboard (ksq - 2) ||| to_bitboard (ksq - 3)) (-1)
      else moves
    moves

/-- Embedding of `std::vector<move> game::get_moves(color c) const`; `none` when a
per-square lookup hits the assertion. -/
def get_moves (mv : movement) (g : game) (c : color) : Option (List move) := do
  let moves ← per_square_loop mv g c
  pure (castling_appendix mv g c moves)

/-! ## Closed forms used to reason about the loops

The functions below are not part of the source.  They describe, without an
accumulator, what each loop body contributes, and the lemmas further down
prove that the embedded code computes exactly these. -/

/-- The four promotion moves of one origin and destination. -/
def promotion_moves (c : color) (i p : square) : List move :=
  pawn_promotions.map fun promote => move.mk i p (some (piece.mk c promote))

/-- What the inner loop body emits for a destination whose bit is set. -/
def dest_moves (g : game) (c : color) (i p : square) : List move :=
  if get_row p = last_row c && test_bit g.board.pawn i then promotion_moves c i p
  else [move.mk i p none]

/-- The value of `mvb` after `mvb &= ~colorb`, with the empty bitboard when
the lookup fails. -/
def masked_moves (mv : movement) (g : game) (c : color) (i : square) : bitboard :=
  (get_moves_square mv g i).getD 0 &&& bb_not (get_colorb g c)

/-- What one iteration of the outer loop emits. -/
def square_moves (mv : movement) (g : game) (c : color) (i : square) : List move :=
  if test_bit (get_colorb g c) i then
    (List.range 64).flatMap fun p =>
      if test_bit (masked_moves mv g c i) p then dest_moves g c i p else []
  else []

/-- Whether every per-square lookup made for the squares of `l` succeeds. -/
def lookups_ok (mv : movement) (g : game) (c : color) (l : List square) : Bool :=
  l.all fun i => !test_bit (get_colorb g c) i || (get_moves_square mv g i).isSome

/-- The king-side castling move of side `c`. -/
def short_castle (c : color) : move := move.mk (king_sq c) (king_sq c + 2) none

/-- The queen-side castling move of side `c`. -/
def long_castle (c : color) : move := move.mk (king_sq c) (king_sq c - 2) none

/-- The condition under which the king-side move is appended, square by square. -/
def short_castle_ok (mv : movement) (g : game) (c : color) : Bool :=
  let attacks := get_attacks mv g (get_opposite_color c)
  let occupied := g.board.black ||| g.board.white
  (g.castling.get_castle_rights c).1 && !test_bit attacks (king_sq c)
    && (!test_bit attacks (king_sq c + 1) && !test_bit attacks (king_sq c + 2))
    && (!test_bit occupied (king_sq c + 1) && !test_bit occupied (king_sq c + 2))

/-- The condition under which the queen-side move is appended, square by square. -/
def long_castle_ok (mv : movement) (g : game) (c : color) : Bool :=
  let attacks := get_attacks mv g (get_opposite_color c)
  let occupied := g.board.black ||| g.board.white
  (g.castling.get_castle_rights c).2 && !test_bit attacks (king_sq c)
    && (!test_bit attacks (king_sq c - 1) && !test_bit attacks (king_sq c - 2))
    && (!test_bit occupied (king_sq c - 1) && !test_bit occupied (king_sq c - 2)
        && !test_bit occupied (king_sq c - 3))

/-! ## The order of the specification -/

/-- Position of a promotion in the fixed order knight, bishop, rook, queen;
a move without promotion ranks with the first. -/
def promotion_index (o : Option piece) : Nat :=
  match o with
  | none => 0
  | some x => pawn_promotions.indexOf x.ptype

/-- The order "origin ascending, then destination ascending, then promotion
order" on moves. -/
def move_le (a b : move) : Prop :=
  a.origin < b.origin ∨
    (a.origin = b.origin ∧
      (a.destination < b.destination ∨
        (a.destination = b.destination ∧
          promotion_index a.promotion ≤ promotion_index b.promotion)))

instance (a b : move) : Decidable (move_le a b) :=
  inferInstanceAs (Decidable (a.origin < b.origin ∨
    (a.origin = b.origin ∧
      (a.destination < b.destination ∨
        (a.destination = b.destination ∧
          promotion_index a.promotion ≤ promotion_index b.promotion)))))

/-! ## Further notions used by the claims -/

/-- The strict order "origin ascending, then destination ascending, then
promotion index ascending", with the index of `promotion_index` (no
promotion and knight first, then bishop, rook, queen). -/
def move_lt (a b : move) : Prop :=
  a.origin < b.origin ∨
    (a.origin = b.origin ∧
      (a.destination < b.destination ∨
        (a.destination = b.destination ∧
          promotion_index a.promotion < promotion_index b.promotion)))

instance (a b : move) : Decidable (move_lt a b) :=
  inferInstanceAs (Decidable (a.origin < b.origin ∨
    (a.origin = b.origin ∧
      (a.destination < b.destination ∨
        (a.destination = b.destination ∧
          promotion_index a.promotion < promotion_index b.promotion)))))

/-- The bitboard of a piece type ("per-piece-type bitboard accessors");
no bitboard is kept for `empty`. -/
def type_bitboard (b : board_t) (t : piece_type) : bitboard :=
  match t with
  | piece_type.pawn => b.pawn
  | piece_type.knight => b.knight
  | piece_type.bishop => b.bishop
  | piece_type.rook => b.rook
  | piece_type.queen => b.queen
  | piece_type.king => b.king
  | piece_type.empty => 0

/-- Side `c` owns exactly one piece, of type `t`, standing on square `s`:
its occupancy is the singleton of `s`, the piece table holds `t` on `s`, and
the pieces of `c` of each type `u` are that singleton when `u = t` and
nothing otherwise. -/
def sole_piece (g : game) (c : color) (s : square) (t : piece_type) : Prop :=
  s < 64 ∧ get_colorb g c = to_bitboard s ∧ (g.board.get_piece s).ptype = t ∧
    ∀ u, get_colorb g c &&& type_bitboard g.board u = if u = t then to_bitboard s else 0

/-! ## Sample generators and positions

The generators of `movement.h` are parameters of the embedding.  To run the
code on concrete positions, this section supplies one instance with the
usual movement rules of chess (leapers, sliders stopped by the first
occupied square, pawn pushes and captures). -/

/-- The squares whose bit is set in `b`, in ascending order. -/
def squares_of (b : bitboard) : List square := (List.range 64).filter (test_bit b)

/-- The bitboard of a list of squares. -/
def of_squares (l : List square) : bitboard :=
  l.foldl (fun acc s => acc ||| to_bitboard s) 0

/-- The square `dr` ranks and `df` files away from `s`, when on the board. -/
def step (s : square) (dr df : Int) : Option square :=
  let r := (s / 8 : Nat) + dr
  let f := (s % 8 : Nat) + df
  if 0 ≤ r ∧ r < 8 ∧ 0 ≤ f ∧ f < 8 then some (Int.toNat (r * 8 + f)) else none

/-- Squares reached in one step of `dirs` from any square of `b`. -/
def leaper (dirs : List (Int × Int)) (b : bitboard) : bitboard :=
  of_squares ((squares_of b).flatMap fun s => dirs.filterMap fun d => step s d.1 d.2)

/-- Squares met from `s` in one direction, up to and including the first
occupied one. -/
def ray (occ : bitboard) (dr df : Int) : Nat → square → List square
  | 0, _ => []
  | n + 1, s =>
    match step s dr df with
    | none => []
    | some t => if test_bit occ t then [t] else t :: ray occ dr df n t

/-- Squares reached by sliding along `dirs` from any square of `b`. -/
def slider (occ : bitboard) (dirs : List (Int × Int)) (b : bitboard) : bitboard :=
  of_squares ((squares_of b).flatMap fun s => dirs.flatMap fun d => ray occ d.1 d.2 7 s)

def king_dirs : List (Int × Int) :=
  [(-1, -1), (-1, 0), (-1, 1), (0, -1), (0, 1), (1, -1), (1, 0), (1, 1)]

def knight_dirs : List (Int × Int) :=
  [(-2, -1), (-2, 1), (-1, -2), (-1, 2), (1, -2), (1, 2), (2, -1), (2, 1)]

def bishop_dirs : List (Int × Int) := [(-1, -1), (-1, 1), (1, -1), (1, 1)]

def rook_dirs : List (Int × Int) := [(-1, 0), (0, -1), (0, 1), (1, 0)]

/-- Direction of pawn advance: white moves towards rank 0. -/
def forward (c : color) : Int := if c = color.white then -1 else 1

def sample_pawn_attacks (b : bitboard) (c : color) : bitboard :=
  leaper [(forward c, -1), (forward c, 1)] b

def sample_pawn_moves (white black : bitboard) (b : bitboard) (c : color) : bitboard :=
  let occ := white ||| black
  let enemy := if c = color.white then black else white
  let start := if c = color.white then 6 else 1
  let pushes := (squares_of b).flatMap fun s =>
    match step s (forward c) 0 with
    | none => []
    | some t =>
      if test_bit occ t then [] else
        t :: (if s / 8 = start then
                match step t (forward c) 0 with
                | none => []
                | some u => if test_bit occ u then [] else [u]
              else [])
  of_squares pushes ||| (sample_pawn_attacks b c &&& enemy)

/-- The sample generators for a board with the given occupancies. -/
def sample_movement (white black : bitboard) : movement where
  get_pawn_attacks := sample_pawn_attacks
  get_pawn_moves := sample_pawn_moves white black
  get_knight_moves := leaper knight_dirs
  get_bishop_moves := slider (white ||| black) bishop_dirs
  get_rook_moves := slider (white ||| black) rook_dirs
  get_queen_moves := fun b =>
    slider (white ||| black) bishop_dirs b ||| slider (white ||| black) rook_dirs b
  get_king_moves := leaper king_dirs

/-- A board given by the list of its pieces. -/
def board_of (l : List (square × piece)) : board_t where
  pawn := of_squares ((l.filter fun e => e.2.ptype = piece_type.pawn).map Prod.fst)
  knight := of_squares ((l.filter fun e => e.2.ptype = piece_type.knight).map Prod.fst)
  bishop := of_squares ((l.filter fun e => e.2.ptype = piece_type.bishop).map Prod.fst)
  rook := of_squares ((l.filter fun e => e.2.ptype = piece_type.rook).map Prod.fst)
  queen := of_squares ((l.filter fun e => e.2.ptype = piece_type.queen).map Prod.fst)
  king := of_squares ((l.filter fun e => e.2.ptype = piece_type.king).map Prod.fst)
  white := of_squares ((l.filter fun e => e.2.pcolor = color.white).map Prod.fst)
  black := of_squares ((l.filter fun e => e.2.pcolor = color.black).map Prod.fst)
  get_piece := fun s =>
    ((l.find? fun e => e.1 = s).map Prod.snd).getD (piece.mk color.white piece_type.empty)

/-- A game given by its pieces and the castling rights of white and black. -/
def sample_game (l : List (square × piece)) (w b : Bool × Bool) : game where
  board := board_of l
  castling := castling_t.mk fun c => if c = color.white then w else b

/-- The sample generators for the board of a list of pieces. -/
def sample_gen (l : List (square × piece)) : movement :=
  sample_movement (board_of l).white (board_of l).black

def wp (t : piece_type) : piece := piece.mk color.white t

def bp (t : piece_type) : piece := piece.mk color.black t

/-- White: king e1 (60), rook h1 (63).  Black: king e8 (4). -/
def castle_pieces : List (square × piece) :=
  [(4, bp piece_type.king), (60, wp piece_type.king), (63, wp piece_type.rook)]

/-- White may castle king-side. -/
def castle_game : game := sample_game castle_pieces (true, false) (false, false)

/-- The output of `get_moves(white)` on `castle_game`. -/
def castle_white_moves : List move :=
  [move.mk 60 51 none, move.mk 60 52 none, move.mk 60 53 none, move.mk 60 59 none,
   move.mk 60 61 none, move.mk 63 7 none, move.mk 63 15 none, move.mk 63 23 none,
   move.mk 63 31 none, move.mk 63 39 none, move.mk 63 47 none, move.mk 63 55 none,
   move.mk 63 61 none, move.mk 63 62 none, move.mk 60 62 none]

/-- White: king e2 (52).  Black: king e8 (4). -/
def stale_pieces : List (square × piece) :=
  [(4, bp piece_type.king), (52, wp piece_type.king)]

/-- The rights tracker still grants white the king-side right although the
white king has left e1. -/
def stale_game : game := sample_game stale_pieces (true, false) (false, false)

/-- The output of `get_moves(white)` on `stale_game`. -/
def stale_white_moves : List move :=
  [move.mk 52 43 none, move.mk 52 44 none, move.mk 52 45 none, move.mk 52 51 none,
   move.mk 52 53 none, move.mk 52 59 none, move.mk 52 60 none, move.mk 52 61 none,
   move.mk 60 62 none]

/-- White: king d2 (51), rook e1 (60).  Black: king e8 (4). -/
def rook_home_pieces : List (square × piece) :=
  [(4, bp piece_type.king), (51, wp piece_type.king), (60, wp piece_type.rook)]

/-- Nobody holds a castling right. -/
def rook_home_game : game := sample_game rook_home_pieces (false, false) (false, false)

/-- The output of `get_moves(white)` on `rook_home_game`. -/
def rook_home_white_moves : List move :=
  [move.mk 51 42 none, move.mk 51 43 none, move.mk 51 44 none, move.mk 51 50 none,
   move.mk 51 52 none, move.mk 51 58 none, move.mk 51 59 none, move.mk 60 4 none,
   move.mk 60 12 none, move.mk 60 20 none, move.mk 60 28 none, move.mk 60 36 none,
   move.mk 60 44 none, move.mk 60 52 none, move.mk 60 56 none, move.mk 60 57 none,
   move.mk 60 58 none, move.mk 60 59 none, move.mk 60 61 none, move.mk 60 62 none,
   move.mk 60 63 none]

/-- White: pawn e7 (12), king e1 (60).  Black: king h8 (7). -/
def promo_pieces : List (square × piece) :=
  [(7, bp piece_type.king), (12, wp piece_type.pawn), (60, wp piece_type.king)]

def promo_game : game := sample_game promo_pieces (false, false) (false, false)

/-- The output of `get_moves(white)` on `promo_game`. -/
def promo_white_moves : List move :=
  [move.mk 12 4 (some (piece.mk color.white piece_type.knight)),
   move.mk 12 4 (some (piece.mk color.white piece_type.bishop)),
   move.mk 12 4 (some (piece.mk color.white piece_type.rook)),
   move.mk 12 4 (some (piece.mk color.white piece_type.queen)),
   move.mk 60 51 none, move.mk 60 52 none, move.mk 60 53 none, move.mk 60 59 none,
   move.mk 60 61 none]

/-- White: king e1 (60), rook h1 (63).  Black: king a8 (0), rook e4 (36)
giving check along the e-file. -/
def check_pieces : List (square × piece) :=
  [(0, bp piece_type.king), (36, bp piece_type.rook), (60, wp piece_type.king),
   (63, wp piece_type.rook)]

/-- White holds the king-side right but is in check. -/
def check_game : game := sample_game check_pieces (true, false) (false, false)

/-- White: rook a1 (56), king e1 (60).  Black: king e8 (4), rook b7 (9)
attacking b1 (57) along the b-file. -/
def long_pieces : List (square × piece) :=
  [(4, bp piece_type.king), (9, bp piece_type.rook), (56, wp piece_type.rook),
   (60, wp piece_type.king)]

/-- White holds the queen-side right. -/
def long_game : game := sample_game long_pieces (false, true) (false, false)

/-- The output of `get_moves(white)` on `long_game`; the last move is the
queen-side castling move. -/
def long_white_moves : List move :=
  [move.mk 56 0 none, move.mk 56 8 none, move.mk 56 16 none, move.mk 56 24 none,
   move.mk 56 32 none, move.mk 56 40 none, move.mk 56 48 none, move.mk 56 57 none,
   move.mk 56 58 none, move.mk 56 59 none, move.mk 60 51 none, move.mk 60 52 none,
   move.mk 60 53 none, move.mk 60 59 none, move.mk 60 61 none, move.mk 60 58 none]

def back_rank : List piece_type :=
  [piece_type.rook, piece_type.knight, piece_type.bishop, piece_type.queen,
   piece_type.king, piece_type.bishop, piece_type.knight, piece_type.rook]

/-- The initial position: black on ranks 0 and 1, white on ranks 6 and 7. -/
def initial_pieces : List (square × piece) :=
  (back_rank.enum.map fun e => (e.1, bp e.2)) ++
  ((List.range 8).map fun f => (8 + f, bp piece_type.pawn)) ++
  ((List.range 8).map fun f => (48 + f, wp piece_type.pawn)) ++
  (back_rank.enum.map fun e => (56 + e.1, wp e.2))

/-- Both sides hold both rights. -/
def initial_game : game := sample_game initial_pieces (true, true) (true, true)

/-- White: pawn e4 (36).  Black: pawn e5 (28), king e8 (4).  The white pawn
is blocked and has nothing to capture. -/
def blocked_pieces : List (square × piece) :=
  [(4, bp piece_type.king), (28, bp piece_type.pawn), (36, wp piece_type.pawn)]

/-- Nobody holds a castling right. -/
def blocked_game : game := sample_game blocked_pieces (false, false) (false, false)

/-- The rights tracker grants white the king-side right. -/
def blocked_stale_game : game := sample_game blocked_pieces (true, false) (false, false)

/-- White: pawn e4 (36).  Black: king e8 (4). -/
def lone_pawn_pieces : List (square × piece) :=
  [(4, bp piece_type.king), (36, wp piece_type.pawn)]

def lone_pawn_game : game := sample_game lone_pawn_pieces (false, false) (false, false)

/-- White: queen d4 (35).  Black: king e8 (4). -/
def lone_queen_pieces : List (square × piece) :=
  [(4, bp piece_type.king), (35, wp piece_type.queen)]

def lone_queen_game : game := sample_game lone_queen_pieces (false, false) (false, false)

/-! ## Lemmas -/

set_option maxRecDepth 100000

theorem test_bit_and (a b : bitboard) (i : square) :
    test_bit (a &&& b) i = (test_bit a i && test_bit b i) := by
  simp [test_bit, Nat.testBit_and]

theorem test_bit_or (a b : bitboard) (i : square) :
    test_bit (a ||| b) i = (test_bit a i || test_bit b i) := by
  simp [test_bit, Nat.testBit_or]

theorem test_bit_bb_not (b : bitboard) (p : square) (hp : p < 64) :
    test_bit (bb_not b) p = !test_bit b p := by
  have hlt : b % 2 ^ 64 < 2 ^ 64 := Nat.mod_lt _ (by norm_num)
  have h : bb_not b = 2 ^ 64 - (b % 2 ^ 64 + 1) := by
    show 2 ^ 64 - 1 - b % 2 ^ 64 = 2 ^ 64 - (b % 2 ^ 64 + 1)
    rw [Nat.sub_sub, Nat.add_comm]
  rw [h]
  simp only [test_bit]
  rw [Nat.testBit_two_pow_sub_succ hlt, Nat.testBit_mod_two_pow]
  simp [hp]

theorem test_bit_to_bitboard (i j : square) (hi : i < 64) :
    test_bit (to_bitboard i) j = decide (j = i) := by
  simp only [test_bit, to_bitboard]
  rw [Nat.testBit_mod_two_pow, Nat.one_shiftLeft, Nat.testBit_two_pow]
  by_cases h : j = i
  · subst h; simp [hi]
  · have h2 : ¬ i = j := fun e => h e.symm
    simp [h, h2]

theorem test_bit_of_and_eq_zero (x m : bitboard) (j : square) (h : x &&& m = 0)
    (hm : test_bit m j = true) : test_bit x j = false := by
  have := test_bit_and x m j
  rw [h, hm] at this
  simpa [test_bit] using this.symm

theorem foldl_append_flatMap {α β : Type} (f : List β → α → List β) (h : α → List β)
    (hf : ∀ acc x, f acc x = acc ++ h x) (l : List α) (acc : List β) :
    l.foldl f acc = acc ++ l.flatMap h := by
  induction l generalizing acc with
  | nil => simp
  | cons x xs ih => simp [List.foldl_cons, hf, ih, List.flatMap_cons, List.append_assoc]

theorem emit_destination_eq (g : game) (c : color) (i : square) (mvb : bitboard)
    (moves : List move) (p : square) :
    emit_destination g c i mvb moves p =
      moves ++ (if test_bit mvb p then dest_moves g c i p else []) := by
  unfold emit_destination dest_moves
  by_cases h1 : test_bit mvb p = true
  · by_cases h2 : (get_row p = last_row c && test_bit g.board.pawn i) = true
    · simp only [h1, h2, if_true]
      simp [pawn_promotions, promotion_moves]
    · simp only [h1, h2, if_true]
      simp
  · simp [h1]

theorem emit_square_eq (mv : movement) (g : game) (c : color) (moves : List move) (i : square) :
    emit_square mv g c moves i =
      if lookups_ok mv g c [i] then some (moves ++ square_moves mv g c i) else none := by
  unfold emit_square square_moves lookups_ok masked_moves
  by_cases h1 : test_bit (get_colorb g c) i = true
  · cases h2 : get_moves_square mv g i with
    | none => simp [h1, h2]
    | some mvb =>
      simp [h1, h2, foldl_append_flatMap _ _ (emit_destination_eq g c i _)]
  · simp [h1]

theorem foldlM_emit_square (mv : movement) (g : game) (c : color) (l : List square)
    (moves : List move) :
    l.foldlM (emit_square mv g c) moves =
      if lookups_ok mv g c l then some (moves ++ l.flatMap (square_moves mv g c)) else none := by
  induction l generalizing moves with
  | nil => simp [lookups_ok]
  | cons x xs ih =>
    rw [List.foldlM_cons, emit_square_eq]
    by_cases hx : lookups_ok mv g c [x] = true
    · have hx2 : lookups_ok mv g c (x :: xs) = lookups_ok mv g c xs := by
        simp only [lookups_ok, List.all_cons, List.all_nil, Bool.and_true] at hx ⊢
        rw [hx]; simp
      rw [if_pos hx, hx2]
      show xs.foldlM (emit_square mv g c) (moves ++ square_moves mv g c x) = _
      rw [ih]
      simp [List.flatMap_cons, List.append_assoc]
    · have hx2 : lookups_ok mv g c (x :: xs) = false := by
        simp only [lookups_ok, List.all_cons, List.all_nil, Bool.and_true] at hx ⊢
        simp only [Bool.not_eq_true] at hx
        rw [hx]; simp
      rw [if_neg hx, hx2]
      rfl

theorem per_square_loop_eq (mv : movement) (g : game) (c : color) :
    per_square_loop mv g c =
      if lookups_ok mv g c (List.range 64) then
        some ((List.range 64).flatMap (square_moves mv g c))
      else none := by
  have h := foldlM_emit_square mv g c (List.range 64) []
  rw [List.nil_append] at h
  exact h

theorem and_eq_zero_iff (x m : bitboard) :
    x &&& m = 0 ↔ ∀ j, test_bit m j = true → test_bit x j = false := by
  constructor
  · intro h j hj
    exact test_bit_of_and_eq_zero x m j h hj
  · intro h
    apply Nat.eq_of_testBit_eq
    intro j
    have hj := h j
    simp only [test_bit] at hj
    rw [Nat.testBit_and, Nat.zero_testBit]
    cases hm : Nat.testBit m j with
    | false => simp
    | true => simp [hj hm]

theorem and_pair_eq_zero (x : Nat) (a b : Nat) (ha : a < 64) (hb : b < 64) :
    x &&& (to_bitboard a ||| to_bitboard b) = 0 ↔
      (test_bit x a = false ∧ test_bit x b = false) := by
  rw [and_eq_zero_iff]
  simp only [test_bit_or, test_bit_to_bitboard _ _ ha, test_bit_to_bitboard _ _ hb,
    Bool.or_eq_true, decide_eq_true_eq]
  constructor
  · intro h; exact ⟨h a (Or.inl rfl), h b (Or.inr rfl)⟩
  · rintro ⟨h1, h2⟩ j (rfl | rfl) <;> assumption

theorem and_triple_eq_zero (x : Nat) (a b d : Nat) (ha : a < 64) (hb : b < 64)
    (hd : d < 64) :
    x &&& (to_bitboard a ||| to_bitboard b ||| to_bitboard d) = 0 ↔
      (test_bit x a = false ∧ test_bit x b = false ∧ test_bit x d = false) := by
  rw [and_eq_zero_iff]
  simp only [test_bit_or, test_bit_to_bitboard _ _ ha, test_bit_to_bitboard _ _ hb,
    test_bit_to_bitboard _ _ hd, Bool.or_eq_true, decide_eq_true_eq]
  constructor
  · intro h; exact ⟨h a (Or.inl (Or.inl rfl)), h b (Or.inl (Or.inr rfl)), h d (Or.inr rfl)⟩
  · rintro ⟨h1, h2, h3⟩ j ((rfl | rfl) | rfl) <;> assumption

theorem king_sq_bounds (c : color) : 4 ≤ king_sq c ∧ king_sq c ≤ 60 := by
  cases c <;> simp [king_sq]

theorem castle_destinations (c : color) :
    Int.toNat ((king_sq c : Int) + 2 * 1) = king_sq c + 2 ∧
    Int.toNat ((king_sq c : Int) + 2 * (-1)) = king_sq c - 2 := by
  cases c <;> simp [king_sq]

theorem add_castling_eq (attacks occupied : bitboard) (ksq : Nat) (moves : List move)
    (safe empty : bitboard) (dir : Int) :
    add_castling attacks occupied ksq moves safe empty dir =
      moves ++ (if attacks &&& safe = 0 ∧ occupied &&& empty = 0 then
        [move.mk ksq (Int.toNat ((ksq : Int) + 2 * dir)) none] else []) := by
  unfold add_castling
  by_cases h1 : attacks &&& safe = 0
  · by_cases h2 : occupied &&& empty = 0
    · simp [h1, h2]
    · simp [h1, h2]
  · simp [h1]

theorem castling_appendix_append (mv : movement) (g : game) (c : color) (moves : List move) :
    castling_appendix mv g c moves = moves ++ castling_appendix mv g c [] := by
  simp only [castling_appendix, add_castling]
  split_ifs <;> simp

theorem castling_appendix_nil (mv : movement) (g : game) (c : color) :
    castling_appendix mv g c [] =
      (if short_castle_ok mv g c then [short_castle c] else []) ++
      (if long_castle_ok mv g c then [long_castle c] else []) := by
  have hk := king_sq_bounds c
  have hd := castle_destinations c
  have e1 := and_pair_eq_zero (get_attacks mv g (get_opposite_color c))
    (king_sq c + 1) (king_sq c + 2) (by omega) (by omega)
  have e2 := and_pair_eq_zero (g.board.black ||| g.board.white)
    (king_sq c + 1) (king_sq c + 2) (by omega) (by omega)
  have e3 := and_pair_eq_zero (get_attacks mv g (get_opposite_color c))
    (king_sq c - 1) (king_sq c - 2) (by omega) (by omega)
  have e4 := and_triple_eq_zero (g.board.black ||| g.board.white)
    (king_sq c - 1) (king_sq c - 2) (king_sq c - 3) (by omega) (by omega) (by omega)
  simp only [castling_appendix, add_castling_eq, short_castle_ok, long_castle_ok, short_castle,
    long_castle, hd.1, hd.2, e1, e2, e3, e4]
  cases h1 : (g.castling.get_castle_rights c).1 <;>
  cases h2 : (g.castling.get_castle_rights c).2 <;>
  cases h3 : test_bit (get_attacks mv g (get_opposite_color c)) (king_sq c) <;>
  simp [and_assoc]

theorem get_moves_eq (mv : movement) (g : game) (c : color) :
    get_moves mv g c =
      (per_square_loop mv g c).map fun lp => lp ++ castling_appendix mv g c [] := by
  unfold get_moves
  cases h : per_square_loop mv g c with
  | none => rfl
  | some lp =>
    show some (castling_appendix mv g c lp) = some (lp ++ castling_appendix mv g c [])
    rw [castling_appendix_append]

theorem mem_dest_moves (g : game) (c : color) (i p : Nat) (m : move)
    (h : m ∈ dest_moves g c i p) : m.origin = i ∧ m.destination = p := by
  unfold dest_moves promotion_moves pawn_promotions at h
  split_ifs at h
  · simp only [List.map_cons, List.map_nil, List.mem_cons, List.mem_singleton,
      List.not_mem_nil, or_false] at h
    rcases h with h | h | h | h <;> subst h <;> exact ⟨rfl, rfl⟩
  · simp only [List.mem_singleton] at h
    subst h; exact ⟨rfl, rfl⟩

theorem mem_square_moves (mv : movement) (g : game) (c : color) (i : Nat) (m : move)
    (h : m ∈ square_moves mv g c i) :
    test_bit (get_colorb g c) i = true ∧ m.origin = i ∧ m.destination < 64 ∧
      test_bit (masked_moves mv g c i) m.destination = true ∧
      m ∈ dest_moves g c i m.destination := by
  unfold square_moves at h
  split_ifs at h with h1
  · rw [List.mem_flatMap] at h
    obtain ⟨p, hp, hm⟩ := h
    split_ifs at hm with h2
    · have hd := mem_dest_moves g c i p m hm
      rw [hd.2]
      exact ⟨h1, hd.1, List.mem_range.mp hp, h2, hm⟩
    · simp at hm
  · simp at h

theorem per_square_loop_some (mv : movement) (g : game) (c : color) (lp : List move)
    (h : per_square_loop mv g c = some lp) :
    lp = (List.range 64).flatMap (square_moves mv g c) := by
  rw [per_square_loop_eq] at h
  split_ifs at h
  exact (Option.some.inj h).symm

theorem mem_loop (mv : movement) (g : game) (c : color) (lp : List move) (m : move)
    (h : per_square_loop mv g c = some lp) (hm : m ∈ lp) :
    m.origin < 64 ∧ m ∈ square_moves mv g c m.origin := by
  rw [per_square_loop_some mv g c lp h, List.mem_flatMap] at hm
  obtain ⟨i, hi, hmi⟩ := hm
  have ho := (mem_square_moves mv g c i m hmi).2.1
  rw [ho]
  exact ⟨List.mem_range.mp hi, hmi⟩

theorem get_moves_some (mv : movement) (g : game) (c : color) (ms : List move)
    (h : get_moves mv g c = some ms) :
    ∃ lp, per_square_loop mv g c = some lp ∧ ms = lp ++ castling_appendix mv g c [] := by
  rw [get_moves_eq] at h
  cases hl : per_square_loop mv g c with
  | none => rw [hl] at h; simp at h
  | some lp =>
    rw [hl] at h
    exact ⟨lp, rfl, (Option.some.inj h).symm⟩

theorem mem_castling (mv : movement) (g : game) (c : color) (m : move) :
    m ∈ castling_appendix mv g c [] ↔
      (m = short_castle c ∧ short_castle_ok mv g c = true) ∨
      (m = long_castle c ∧ long_castle_ok mv g c = true) := by
  rw [castling_appendix_nil]
  by_cases h1 : short_castle_ok mv g c = true <;>
  by_cases h2 : long_castle_ok mv g c = true <;>
  simp [h1, h2]

theorem test_bit_colorb_of_occupied (g : game) (c : color) (s : Nat)
    (h : test_bit (g.board.black ||| g.board.white) s = false) :
    test_bit (get_colorb g c) s = false := by
  rw [test_bit_or] at h
  cases c
  · show test_bit g.board.white s = false
    cases hw : test_bit g.board.white s
    · rfl
    · rw [hw] at h; simp at h
  · show test_bit g.board.black s = false
    cases hb : test_bit g.board.black s
    · rfl
    · rw [hb] at h; simp at h

theorem short_castle_ok_iff (mv : movement) (g : game) (c : color) :
    short_castle_ok mv g c = true ↔
      ((g.castling.get_castle_rights c).1 = true ∧
       test_bit (get_attacks mv g (get_opposite_color c)) (king_sq c) = false ∧
       test_bit (get_attacks mv g (get_opposite_color c)) (king_sq c + 1) = false ∧
       test_bit (get_attacks mv g (get_opposite_color c)) (king_sq c + 2) = false ∧
       test_bit (g.board.black ||| g.board.white) (king_sq c + 1) = false ∧
       test_bit (g.board.black ||| g.board.white) (king_sq c + 2) = false) := by
  simp [short_castle_ok, and_assoc]

theorem long_castle_ok_iff (mv : movement) (g : game) (c : color) :
    long_castle_ok mv g c = true ↔
      ((g.castling.get_castle_rights c).2 = true ∧
       test_bit (get_attacks mv g (get_opposite_color c)) (king_sq c) = false ∧
       test_bit (get_attacks mv g (get_opposite_color c)) (king_sq c - 1) = false ∧
       test_bit (get_attacks mv g (get_opposite_color c)) (king_sq c - 2) = false ∧
       test_bit (g.board.black ||| g.board.white) (king_sq c - 1) = false ∧
       test_bit (g.board.black ||| g.board.white) (king_sq c - 2) = false ∧
       test_bit (g.board.black ||| g.board.white) (king_sq c - 3) = false) := by
  simp [long_castle_ok, and_assoc]

theorem flatMap_eq_of_unique {α β : Type} (l : List α) (f : α → List β) (a : α)
    (hnd : l.Nodup) (ha : a ∈ l) (h : ∀ x ∈ l, x ≠ a → f x = []) :
    l.flatMap f = f a := by
  induction l with
  | nil => simp at ha
  | cons x xs ih =>
    rw [List.nodup_cons] at hnd
    rw [List.flatMap_cons]
    by_cases hx : x = a
    · subst hx
      have hnil : xs.flatMap f = [] := by
        rw [List.flatMap_eq_nil_iff]
        intro y hy
        apply h y (List.mem_cons_of_mem _ hy)
        intro e; subst e; exact hnd.1 hy
      rw [hnil, List.append_nil]
    · have hxs : a ∈ xs := by
        rcases List.mem_cons.mp ha with e | e
        · exact absurd e.symm hx
        · exact e
      rw [h x (List.mem_cons_self _ _) hx, List.nil_append]
      exact ih hnd.2 hxs (fun y hy => h y (List.mem_cons_of_mem _ hy))

theorem promotion_moves_sorted (c : color) (i p : Nat) :
    (promotion_moves c i p).Pairwise move_le := by
  simp [promotion_moves, pawn_promotions, move_le, promotion_index]

theorem dest_moves_sorted (g : game) (c : color) (i p : Nat) :
    (dest_moves g c i p).Pairwise move_le := by
  unfold dest_moves
  split_ifs
  · exact promotion_moves_sorted c i p
  · simp

theorem square_moves_sorted (mv : movement) (g : game) (c : color) (i : Nat) :
    (square_moves mv g c i).Pairwise move_le := by
  unfold square_moves
  split_ifs
  · rw [List.pairwise_flatMap]
    constructor
    · intro p _
      split_ifs
      · exact dest_moves_sorted g c i p
      · exact List.Pairwise.nil
    · refine List.Pairwise.imp ?_ (List.pairwise_lt_range 64)
      intro p q hpq x hx y hy
      split_ifs at hx with h1
      · split_ifs at hy with h2
        · have ex := mem_dest_moves g c i p x hx
          have ey := mem_dest_moves g c i q y hy
          right
          refine ⟨by rw [ex.1, ey.1], Or.inl ?_⟩
          rw [ex.2, ey.2]; exact hpq
        · simp at hy
      · simp at hx
  · exact List.Pairwise.nil

theorem loop_moves_sorted (mv : movement) (g : game) (c : color) (n : Nat) :
    ((List.range n).flatMap (square_moves mv g c)).Pairwise move_le := by
  rw [List.pairwise_flatMap]
  constructor
  · intro i _
    exact square_moves_sorted mv g c i
  · refine List.Pairwise.imp ?_ (List.pairwise_lt_range n)
    intro i j hij x hx y hy
    left
    rw [(mem_square_moves mv g c i x hx).2.1, (mem_square_moves mv g c j y hy).2.1]
    exact hij

theorem castle_rows (c : color) :
    get_row (king_sq c + 2) ≠ last_row c ∧ get_row (king_sq c - 2) ≠ last_row c := by
  cases c <;> simp [king_sq, last_row, get_row]

theorem not_mem_castling_of_row (mv : movement) (g : game) (c : color) (m : move)
    (hm : m ∈ castling_appendix mv g c []) : get_row m.destination ≠ last_row c := by
  rcases (mem_castling mv g c m).mp hm with ⟨rfl, _⟩ | ⟨rfl, _⟩
  · exact (castle_rows c).1
  · exact (castle_rows c).2

theorem filter_square_moves (mv : movement) (g : game) (c : color) (i p : Nat) (hp : p < 64)
    (hocc : test_bit (get_colorb g c) i = true)
    (hdest : test_bit (masked_moves mv g c i) p = true) :
    (square_moves mv g c i).filter (fun m => decide (m.origin = i ∧ m.destination = p)) =
      dest_moves g c i p := by
  unfold square_moves
  rw [if_pos hocc, List.filter_flatMap,
    flatMap_eq_of_unique (List.range 64) _ p (List.nodup_range 64) (List.mem_range.mpr hp)]
  · rw [if_pos hdest, List.filter_eq_self]
    intro m hm
    have := mem_dest_moves g c i p m hm
    simp [this.1, this.2]
  · intro q _ hq
    rw [List.filter_eq_nil_iff]
    intro m hm
    split_ifs at hm
    · have := mem_dest_moves g c i q m hm
      simp [this.2, hq]
    · simp at hm

theorem filter_loop_moves (mv : movement) (g : game) (c : color) (i p : Nat)
    (hi : i < 64) (hp : p < 64)
    (hocc : test_bit (get_colorb g c) i = true)
    (hdest : test_bit (masked_moves mv g c i) p = true) :
    ((List.range 64).flatMap (square_moves mv g c)).filter
        (fun m => decide (m.origin = i ∧ m.destination = p)) =
      dest_moves g c i p := by
  rw [List.filter_flatMap,
    flatMap_eq_of_unique (List.range 64) _ i (List.nodup_range 64) (List.mem_range.mpr hi)]
  · exact filter_square_moves mv g c i p hp hocc hdest
  · intro j _ hj
    rw [List.filter_eq_nil_iff]
    intro m hm
    have := mem_square_moves mv g c j m hm
    simp [this.2.1, hj]

theorem lookups_ok_iff (mv : movement) (g : game) (c : color) (l : List Nat) :
    lookups_ok mv g c l = true ↔
      ∀ i ∈ l, test_bit (get_colorb g c) i = true →
        (g.board.get_piece i).ptype ≠ piece_type.empty := by
  unfold lookups_ok
  rw [List.all_eq_true]
  constructor
  · intro h i hi hocc hemp
    have := h i hi
    rw [hocc] at this
    simp [get_moves_square, hemp] at this
  · intro h i hi
    cases hocc : test_bit (get_colorb g c) i with
    | false => simp
    | true =>
      have hne := h i hi hocc
      cases hp : (g.board.get_piece i).ptype <;> simp_all [get_moves_square]

theorem get_moves_square_none_iff (mv : movement) (g : game) (i : Nat) :
    get_moves_square mv g i = none ↔ (g.board.get_piece i).ptype = piece_type.empty := by
  cases hp : (g.board.get_piece i).ptype <;> simp [get_moves_square, hp]

theorem test_bit_zero (j : Nat) : test_bit 0 j = false := by
  simp [test_bit]

theorem square_moves_nil_of_not_own (mv : movement) (g : game) (c : color) (i : Nat)
    (h : test_bit (get_colorb g c) i = false) : square_moves mv g c i = [] := by
  unfold square_moves
  rw [if_neg (by simp [h])]

theorem square_moves_nil_of_blocked (mv : movement) (g : game) (c : color) (i : Nat)
    (h : masked_moves mv g c i = 0) : square_moves mv g c i = [] := by
  unfold square_moves
  split_ifs
  · rw [List.flatMap_eq_nil_iff]
    intro p _
    rw [h, test_bit_zero]
    rfl
  · rfl

theorem mem_loop_of_dest (mv : movement) (g : game) (c : color) (i p : Nat) (m : move)
    (hi : i < 64) (hp : p < 64)
    (hocc : test_bit (get_colorb g c) i = true)
    (hdest : test_bit (masked_moves mv g c i) p = true)
    (hm : m ∈ dest_moves g c i p) :
    m ∈ (List.range 64).flatMap (square_moves mv g c) := by
  rw [List.mem_flatMap]
  refine ⟨i, List.mem_range.mpr hi, ?_⟩
  unfold square_moves
  rw [if_pos hocc, List.mem_flatMap]
  refine ⟨p, List.mem_range.mpr hp, ?_⟩
  rw [if_pos hdest]
  exact hm

theorem masked_moves_of_some (mv : movement) (g : game) (c : color) (i : Nat) (mvb : Nat)
    (hmv : get_moves_square mv g i = some mvb) :
    masked_moves mv g c i = mvb &&& bb_not (get_colorb g c) := by
  unfold masked_moves
  rw [hmv]
  rfl

theorem promotion_of_mem_dest_moves (g : game) (c : color) (i p : Nat) (m : move)
    (h : m ∈ dest_moves g c i p) :
    m.promotion ≠ none ↔
      (test_bit g.board.pawn i = true ∧ get_row p = last_row c) := by
  unfold dest_moves at h
  by_cases hc : (get_row p = last_row c && test_bit g.board.pawn i) = true
  · rw [if_pos hc] at h
    have hc2 : get_row p = last_row c ∧ test_bit g.board.pawn i = true := by
      simpa using hc
    simp only [promotion_moves, List.mem_map] at h
    obtain ⟨t, _, rfl⟩ := h
    simp [hc2.1, hc2.2]
  · rw [if_neg hc] at h
    have hm : m = move.mk i p none := by simpa using h
    have hc2 : ¬ (get_row p = last_row c ∧ test_bit g.board.pawn i = true) := by
      simpa using hc
    subst hm
    constructor
    · intro hn; exact absurd rfl hn
    · intro hx; exact absurd ⟨hx.2, hx.1⟩ hc2

theorem promotion_moves_strict (c : color) (i p : Nat) :
    (promotion_moves c i p).Pairwise move_lt := by
  simp [promotion_moves, pawn_promotions, move_lt, promotion_index]

theorem dest_moves_strict (g : game) (c : color) (i p : Nat) :
    (dest_moves g c i p).Pairwise move_lt := by
  unfold dest_moves
  split_ifs
  · exact promotion_moves_strict c i p
  · simp

theorem square_moves_strict (mv : movement) (g : game) (c : color) (i : Nat) :
    (square_moves mv g c i).Pairwise move_lt := by
  unfold square_moves
  split_ifs
  · rw [List.pairwise_flatMap]
    constructor
    · intro p _
      split_ifs
      · exact dest_moves_strict g c i p
      · exact List.Pairwise.nil
    · refine List.Pairwise.imp ?_ (List.pairwise_lt_range 64)
      intro p q hpq x hx y hy
      split_ifs at hx with h1
      · split_ifs at hy with h2
        · have ex := mem_dest_moves g c i p x hx
          have ey := mem_dest_moves g c i q y hy
          right
          refine ⟨by rw [ex.1, ey.1], Or.inl ?_⟩
          rw [ex.2, ey.2]; exact hpq
        · simp at hy
      · simp at hx
  · exact List.Pairwise.nil

theorem loop_moves_strict (mv : movement) (g : game) (c : color) (n : Nat) :
    ((List.range n).flatMap (square_moves mv g c)).Pairwise move_lt := by
  rw [List.pairwise_flatMap]
  constructor
  · intro i _
    exact square_moves_strict mv g c i
  · refine List.Pairwise.imp ?_ (List.pairwise_lt_range n)
    intro i j hij x hx y hy
    left
    rw [(mem_square_moves mv g c i x hx).2.1, (mem_square_moves mv g c j y hy).2.1]
    exact hij

theorem move_lt_irrefl (a : move) : ¬ move_lt a a := by
  intro h
  rcases h with h | ⟨_, h | ⟨_, h⟩⟩ <;> exact Nat.lt_irrefl _ h

theorem test_bit_to_bitboard_any (s j : Nat) :
    test_bit (to_bitboard s) j = (decide (j < 64) && decide (j = s)) := by
  simp only [test_bit, to_bitboard]
  rw [Nat.testBit_mod_two_pow, Nat.one_shiftLeft, Nat.testBit_two_pow]
  by_cases h : j = s
  · subst h; simp
  · have h2 : ¬ s = j := fun e => h e.symm
    simp [h, h2]

theorem test_bit_foldl_or (l : List Nat) (acc j : Nat) :
    test_bit (l.foldl (fun acc s => acc ||| to_bitboard s) acc) j =
      (test_bit acc j || (decide (j < 64) && decide (j ∈ l))) := by
  induction l generalizing acc with
  | nil => simp
  | cons x xs ih =>
    rw [List.foldl_cons, ih, test_bit_or, test_bit_to_bitboard_any, Bool.eq_iff_iff]
    simp only [Bool.or_eq_true, Bool.and_eq_true, decide_eq_true_eq, List.mem_cons]
    tauto

theorem test_bit_of_squares (l : List Nat) (j : Nat) :
    test_bit (of_squares l) j = (decide (j < 64) && decide (j ∈ l)) := by
  unfold of_squares
  rw [test_bit_foldl_or, test_bit_zero, Bool.false_or]

theorem mem_squares_of (b s : Nat) :
    s ∈ squares_of b ↔ (s < 64 ∧ test_bit b s = true) := by
  unfold squares_of
  rw [List.mem_filter, List.mem_range]

theorem slider_or (occ : Nat) (dirs : List (Int × Int)) (a b : Nat) :
    slider occ dirs (a ||| b) = slider occ dirs a ||| slider occ dirs b := by
  apply Nat.eq_of_testBit_eq
  intro j
  show test_bit (slider occ dirs (a ||| b)) j =
    test_bit (slider occ dirs a ||| slider occ dirs b) j
  rw [test_bit_or]
  unfold slider
  rw [test_bit_of_squares, test_bit_of_squares, test_bit_of_squares, Bool.eq_iff_iff]
  simp only [Bool.and_eq_true, Bool.or_eq_true, decide_eq_true_eq, List.mem_flatMap,
    mem_squares_of, test_bit_or]
  constructor
  · rintro ⟨hj, s, ⟨hs, ha | hb⟩, hd⟩
    · exact Or.inl ⟨hj, s, ⟨hs, ha⟩, hd⟩
    · exact Or.inr ⟨hj, s, ⟨hs, hb⟩, hd⟩
  · rintro (⟨hj, s, ⟨hs, ha⟩, hd⟩ | ⟨hj, s, ⟨hs, hb⟩, hd⟩)
    · exact ⟨hj, s, ⟨hs, Or.inl ha⟩, hd⟩
    · exact ⟨hj, s, ⟨hs, Or.inr hb⟩, hd⟩

/-! ## The claims -/

/-- C1: every move returned by `get_moves(side)`, castling moves included,
has a destination square whose bit is clear in the occupancy bitboard of
`side`. -/
theorem get_moves_destination_not_own (mv : movement) (g : game) (c : color)
    (ms : List move) (h : get_moves mv g c = some ms) :
    ∀ m ∈ ms, test_bit (get_colorb g c) m.destination = false := by
  intro m hm
  obtain ⟨lp, hl, rfl⟩ := get_moves_some mv g c ms h
  rcases List.mem_append.mp hm with hm | hm
  · have hs := mem_square_moves mv g c m.origin m (mem_loop mv g c lp m hl hm).2
    have hd := hs.2.2.2.1
    unfold masked_moves at hd
    rw [test_bit_and, test_bit_bb_not _ _ hs.2.2.1] at hd
    simp only [Bool.and_eq_true, Bool.not_eq_true'] at hd
    exact hd.2
  · rcases (mem_castling mv g c m).mp hm with ⟨rfl, hok⟩ | ⟨rfl, hok⟩
    · exact test_bit_colorb_of_occupied g c _ ((short_castle_ok_iff mv g c).mp hok).2.2.2.2.2
    · exact test_bit_colorb_of_occupied g c _ ((long_castle_ok_iff mv g c).mp hok).2.2.2.2.2.1

/-- Witness of C1 on `castle_game`, whose output ends with the king-side
castling move. -/
theorem get_moves_destination_not_own_witness :
    get_moves (sample_gen castle_pieces) castle_game color.white = some castle_white_moves ∧
    ∀ m ∈ castle_white_moves,
      test_bit (get_colorb castle_game color.white) m.destination = false :=
  ⟨by decide,
   get_moves_destination_not_own (sample_gen castle_pieces) castle_game color.white
     castle_white_moves (by decide)⟩

/-- C2, amended: when the king home square of `side` (60 for white, 4 for
black) is occupied by `side`, or `side` holds no castling right, every move
returned by `get_moves(side)` has an origin square whose bit is set in the
occupancy bitboard of `side`. -/
theorem get_moves_origin_own (mv : movement) (g : game) (c : color) (ms : List move)
    (hking : g.castling.get_castle_rights c = (false, false) ∨
      test_bit (get_colorb g c) (king_sq c) = true)
    (h : get_moves mv g c = some ms) :
    ∀ m ∈ ms, test_bit (get_colorb g c) m.origin = true := by
  intro m hm
  obtain ⟨lp, hl, rfl⟩ := get_moves_some mv g c ms h
  rcases List.mem_append.mp hm with hm | hm
  · exact (mem_square_moves mv g c m.origin m (mem_loop mv g c lp m hl hm).2).1
  · rcases hking with hr | hk
    · rcases (mem_castling mv g c m).mp hm with ⟨_, hok⟩ | ⟨_, hok⟩
      · have := ((short_castle_ok_iff mv g c).mp hok).1
        rw [hr] at this; simp at this
      · have := ((long_castle_ok_iff mv g c).mp hok).1
        rw [hr] at this; simp at this
    · rcases (mem_castling mv g c m).mp hm with ⟨rfl, _⟩ | ⟨rfl, _⟩ <;> exact hk

/-- Witness of the amended C2 on `castle_game`, where the white king stands
on its home square. -/
theorem get_moves_origin_own_witness :
    test_bit (get_colorb castle_game color.white) (king_sq color.white) = true ∧
    get_moves (sample_gen castle_pieces) castle_game color.white = some castle_white_moves ∧
    ∀ m ∈ castle_white_moves,
      test_bit (get_colorb castle_game color.white) m.origin = true :=
  ⟨by decide, by decide,
   get_moves_origin_own (sample_gen castle_pieces) castle_game color.white
     castle_white_moves (Or.inr (by decide)) (by decide)⟩

/-- Counterexample to C2 as stated: on `stale_game` white holds the
king-side right while square 60 is empty; `get_moves(white)` ends with the
castling move `(60, 62)`, whose origin is not occupied by white. -/
theorem get_moves_origin_own_counterexample :
    get_moves (sample_gen stale_pieces) stale_game color.white = some stale_white_moves ∧
    move.mk 60 62 none ∈ stale_white_moves ∧
    test_bit (get_colorb stale_game color.white) (move.mk 60 62 none).origin = false := by
  decide

/-- C3, amended: the sequence returned by `get_moves(side)` is the output of
the per-square loop followed by the appended castling moves; the loop output
is sorted by (origin, destination, promotion order), each move being not
greater than its successor, and the appended part is a sublist of
[king-side castle, queen-side castle], in that order. -/
theorem get_moves_loop_sorted (mv : movement) (g : game) (c : color) (ms : List move)
    (h : get_moves mv g c = some ms) :
    ∃ lp cs, per_square_loop mv g c = some lp ∧ ms = lp ++ cs ∧
      List.Chain' move_le lp ∧
      List.Sublist cs [move.mk (king_sq c) (king_sq c + 2) none,
        move.mk (king_sq c) (king_sq c - 2) none] := by
  obtain ⟨lp, hl, hms⟩ := get_moves_some mv g c ms h
  refine ⟨lp, castling_appendix mv g c [], hl, hms, ?_, ?_⟩
  · rw [per_square_loop_some mv g c lp hl]
    exact (loop_moves_sorted mv g c 64).chain'
  · rw [castling_appendix_nil]
    by_cases h1 : short_castle_ok mv g c = true <;>
    by_cases h2 : long_castle_ok mv g c = true <;>
    simp [h1, h2, short_castle, long_castle]

/-- Witness of the amended C3 on `castle_game`. -/
theorem get_moves_loop_sorted_witness :
    get_moves (sample_gen castle_pieces) castle_game color.white = some castle_white_moves ∧
    ∃ lp cs, per_square_loop (sample_gen castle_pieces) castle_game color.white = some lp ∧
      castle_white_moves = lp ++ cs ∧ List.Chain' move_le lp ∧
      List.Sublist cs [move.mk (king_sq color.white) (king_sq color.white + 2) none,
        move.mk (king_sq color.white) (king_sq color.white - 2) none] :=
  ⟨by decide,
   get_moves_loop_sorted (sample_gen castle_pieces) castle_game color.white
     castle_white_moves (by decide)⟩

/-- Counterexample to C3 as stated: on `castle_game` the output of
`get_moves(white)` ends with the rook move `(63, 62)` followed by the
castling move `(60, 62)`, so it is not sorted. -/
theorem get_moves_sorted_counterexample :
    get_moves (sample_gen castle_pieces) castle_game color.white = some castle_white_moves ∧
    ¬ List.Chain' move_le castle_white_moves := by
  refine ⟨by decide, ?_⟩
  unfold castle_white_moves
  simp only [List.chain'_cons, List.chain'_singleton]
  decide

/-- C4: for a square `i` of `side` whose bit is set in the pawn bitboard and
a destination `p` on the promotion rank of `side` that is set in
`get_moves(i) & ~occupancy(side)`, the moves of `get_moves(side)` with
origin `i` and destination `p` are exactly four, promoting to knight,
bishop, rook and queen in that order, each of colour `side`. -/
theorem promotion_expansion (mv : movement) (g : game) (c : color) (ms : List move)
    (i p : square) (mvb : bitboard) (hi : i < 64) (hp : p < 64)
    (hocc : test_bit (get_colorb g c) i = true)
    (hpawn : test_bit g.board.pawn i = true)
    (hmv : get_moves_square mv g i = some mvb)
    (hdest : test_bit (mvb &&& bb_not (get_colorb g c)) p = true)
    (hrow : get_row p = last_row c)
    (h : get_moves mv g c = some ms) :
    ms.filter (fun m => decide (m.origin = i ∧ m.destination = p)) =
      [move.mk i p (some (piece.mk c piece_type.knight)),
       move.mk i p (some (piece.mk c piece_type.bishop)),
       move.mk i p (some (piece.mk c piece_type.rook)),
       move.mk i p (some (piece.mk c piece_type.queen))] := by
  obtain ⟨lp, hl, rfl⟩ := get_moves_some mv g c ms h
  have hmask : test_bit (masked_moves mv g c i) p = true := by
    unfold masked_moves; rw [hmv]; exact hdest
  have hcs : (castling_appendix mv g c []).filter
      (fun m => decide (m.origin = i ∧ m.destination = p)) = [] := by
    rw [List.filter_eq_nil_iff]
    intro m hm
    have hr := not_mem_castling_of_row mv g c m hm
    have : m.destination ≠ p := fun e => hr (e ▸ hrow)
    simp [this]
  rw [List.filter_append, hcs, List.append_nil, per_square_loop_some mv g c lp hl,
    filter_loop_moves mv g c i p hi hp hocc hmask]
  unfold dest_moves
  rw [if_pos (by simp [hrow, hpawn])]
  rfl

/-- Witness of C4 on `promo_game`: the white pawn on 12 promotes on 4. -/
theorem promotion_expansion_witness :
    get_moves (sample_gen promo_pieces) promo_game color.white = some promo_white_moves ∧
    get_moves_square (sample_gen promo_pieces) promo_game 12 = some 16 ∧
    promo_white_moves.filter (fun m => decide (m.origin = 12 ∧ m.destination = 4)) =
      [move.mk 12 4 (some (piece.mk color.white piece_type.knight)),
       move.mk 12 4 (some (piece.mk color.white piece_type.bishop)),
       move.mk 12 4 (some (piece.mk color.white piece_type.rook)),
       move.mk 12 4 (some (piece.mk color.white piece_type.queen))] :=
  ⟨by decide, by decide,
   promotion_expansion (sample_gen promo_pieces) promo_game color.white promo_white_moves
     12 4 16 (by decide) (by decide) (by decide) (by decide) (by decide) (by decide)
     (by decide) (by decide)⟩

/-- C5: if `side` holds the king-side right, its king home square `k` is not
attacked by the opponent, and `k+1` and `k+2` are unoccupied and not
attacked, then the plain move `(k, k+2)` is in `get_moves(side)`. -/
theorem short_castle_present (mv : movement) (g : game) (c : color) (ms : List move)
    (hright : (g.castling.get_castle_rights c).1 = true)
    (hking : test_bit (get_attacks mv g (get_opposite_color c)) (king_sq c) = false)
    (hsafe1 : test_bit (get_attacks mv g (get_opposite_color c)) (king_sq c + 1) = false)
    (hsafe2 : test_bit (get_attacks mv g (get_opposite_color c)) (king_sq c + 2) = false)
    (hfree1 : test_bit g.board.white (king_sq c + 1) = false ∧
      test_bit g.board.black (king_sq c + 1) = false)
    (hfree2 : test_bit g.board.white (king_sq c + 2) = false ∧
      test_bit g.board.black (king_sq c + 2) = false)
    (h : get_moves mv g c = some ms) :
    move.mk (king_sq c) (king_sq c + 2) none ∈ ms := by
  obtain ⟨lp, _, rfl⟩ := get_moves_some mv g c ms h
  apply List.mem_append_right
  rw [mem_castling]
  left
  refine ⟨rfl, (short_castle_ok_iff mv g c).mpr ⟨hright, hking, hsafe1, hsafe2, ?_, ?_⟩⟩
  · rw [test_bit_or, hfree1.1, hfree1.2]; rfl
  · rw [test_bit_or, hfree2.1, hfree2.2]; rfl

/-- Witness of C5 on `castle_game`. -/
theorem short_castle_present_witness :
    (castle_game.castling.get_castle_rights color.white).1 = true ∧
    get_moves (sample_gen castle_pieces) castle_game color.white = some castle_white_moves ∧
    move.mk (king_sq color.white) (king_sq color.white + 2) none ∈ castle_white_moves :=
  ⟨by decide, by decide,
   short_castle_present (sample_gen castle_pieces) castle_game color.white castle_white_moves
     (by decide) (by decide) (by decide) (by decide) (by decide) (by decide) (by decide)⟩

/-- C6, amended: if the king-side right is missing, or `k`, `k+1` or `k+2` is
attacked, or `k+1` or `k+2` is occupied, the castling step appends no move
`(k, k+2)`: the plain move `(k, k+2)` occurs in `get_moves(side)` exactly as
often as the per-square loop emitted it.  Likewise for the queen side with
`k-1`, `k-2` attacked or `k-1`, `k-2`, `k-3` occupied and the move
`(k, k-2)`. -/
theorem castle_not_appended (mv : movement) (g : game) (c : color) (lp ms : List move)
    (hl : per_square_loop mv g c = some lp) (h : get_moves mv g c = some ms) :
    (((g.castling.get_castle_rights c).1 = false ∨
       test_bit (get_attacks mv g (get_opposite_color c)) (king_sq c) = true ∨
       test_bit (get_attacks mv g (get_opposite_color c)) (king_sq c + 1) = true ∨
       test_bit (get_attacks mv g (get_opposite_color c)) (king_sq c + 2) = true ∨
       test_bit (g.board.black ||| g.board.white) (king_sq c + 1) = true ∨
       test_bit (g.board.black ||| g.board.white) (king_sq c + 2) = true) →
      ms.count (move.mk (king_sq c) (king_sq c + 2) none) =
        lp.count (move.mk (king_sq c) (king_sq c + 2) none)) ∧
    (((g.castling.get_castle_rights c).2 = false ∨
       test_bit (get_attacks mv g (get_opposite_color c)) (king_sq c) = true ∨
       test_bit (get_attacks mv g (get_opposite_color c)) (king_sq c - 1) = true ∨
       test_bit (get_attacks mv g (get_opposite_color c)) (king_sq c - 2) = true ∨
       test_bit (g.board.black ||| g.board.white) (king_sq c - 1) = true ∨
       test_bit (g.board.black ||| g.board.white) (king_sq c - 2) = true ∨
       test_bit (g.board.black ||| g.board.white) (king_sq c - 3) = true) →
      ms.count (move.mk (king_sq c) (king_sq c - 2) none) =
        lp.count (move.mk (king_sq c) (king_sq c - 2) none)) := by
  obtain ⟨lp2, hl2, rfl⟩ := get_moves_some mv g c ms h
  rw [hl] at hl2
  cases Option.some.inj hl2
  have hk := king_sq_bounds c
  constructor
  · intro hfail
    rw [List.count_append, Nat.add_right_eq_self, List.count_eq_zero, mem_castling]
    rintro (⟨_, hok⟩ | ⟨he, _⟩)
    · have hs := (short_castle_ok_iff mv g c).mp hok
      rcases hfail with hf | hf | hf | hf | hf | hf
      · rw [hs.1] at hf; simp at hf
      · rw [hs.2.1] at hf; simp at hf
      · rw [hs.2.2.1] at hf; simp at hf
      · rw [hs.2.2.2.1] at hf; simp at hf
      · rw [hs.2.2.2.2.1] at hf; simp at hf
      · rw [hs.2.2.2.2.2] at hf; simp at hf
    · have hdst : king_sq c + 2 = king_sq c - 2 := congrArg move.destination he
      omega
  · intro hfail
    rw [List.count_append, Nat.add_right_eq_self, List.count_eq_zero, mem_castling]
    rintro (⟨he, _⟩ | ⟨_, hok⟩)
    · have hdst : king_sq c - 2 = king_sq c + 2 := congrArg move.destination he
      omega
    · have hs := (long_castle_ok_iff mv g c).mp hok
      rcases hfail with hf | hf | hf | hf | hf | hf | hf
      · rw [hs.1] at hf; simp at hf
      · rw [hs.2.1] at hf; simp at hf
      · rw [hs.2.2.1] at hf; simp at hf
      · rw [hs.2.2.2.1] at hf; simp at hf
      · rw [hs.2.2.2.2.1] at hf; simp at hf
      · rw [hs.2.2.2.2.2.1] at hf; simp at hf
      · rw [hs.2.2.2.2.2.2] at hf; simp at hf

/-- Witness of the amended C6.  On `long_game` white lacks the king-side
right and the castling step appends only `(60, 58)`; on `castle_game` white
lacks the queen-side right and the castling step appends only `(60, 62)`. -/
theorem castle_not_appended_witness :
    ((long_game.castling.get_castle_rights color.white).1 = false ∧
      get_moves (sample_gen long_pieces) long_game color.white = some long_white_moves ∧
      List.count (move.mk (king_sq color.white) (king_sq color.white + 2) none)
          long_white_moves =
        List.count (move.mk (king_sq color.white) (king_sq color.white + 2) none)
          long_white_moves.dropLast) ∧
    ((castle_game.castling.get_castle_rights color.white).2 = false ∧
      get_moves (sample_gen castle_pieces) castle_game color.white =
        some castle_white_moves ∧
      List.count (move.mk (king_sq color.white) (king_sq color.white - 2) none)
          castle_white_moves =
        List.count (move.mk (king_sq color.white) (king_sq color.white - 2) none)
          castle_white_moves.dropLast) :=
  ⟨⟨by decide, by decide,
    (castle_not_appended (sample_gen long_pieces) long_game color.white
      long_white_moves.dropLast long_white_moves (by decide) (by decide)).1
      (Or.inl (by decide))⟩,
   ⟨by decide, by decide,
    (castle_not_appended (sample_gen castle_pieces) castle_game color.white
      castle_white_moves.dropLast castle_white_moves (by decide) (by decide)).2
      (Or.inl (by decide))⟩⟩

/-- Counterexample to C6 as stated: on `rook_home_game` white holds no
castling right, yet `get_moves(white)` contains the plain moves `(60, 62)`
and `(60, 58)`, the moves of the white rook on 60. -/
theorem castle_absent_counterexample :
    rook_home_game.castling.get_castle_rights color.white = (false, false) ∧
    get_moves (sample_gen rook_home_pieces) rook_home_game color.white =
      some rook_home_white_moves ∧
    move.mk (king_sq color.white) (king_sq color.white + 2) none ∈ rook_home_white_moves ∧
    move.mk (king_sq color.white) (king_sq color.white - 2) none ∈ rook_home_white_moves := by
  decide

/-- C7: the castling step appends the queen-side move `(k, k-2)` to the
moves of the loop if and only if `side` holds the queen-side right, `k`,
`k-1` and `k-2` are not attacked by the opponent, and `k-1`, `k-2` and `k-3`
are unoccupied.  No condition is put on attacks of `k-3`. -/
theorem long_castle_appended_iff (mv : movement) (g : game) (c : color) (moves : List move) :
    move.mk (king_sq c) (king_sq c - 2) none ∈
        (castling_appendix mv g c moves).drop moves.length ↔
      ((g.castling.get_castle_rights c).2 = true ∧
       test_bit (get_attacks mv g (get_opposite_color c)) (king_sq c) = false ∧
       test_bit (get_attacks mv g (get_opposite_color c)) (king_sq c - 1) = false ∧
       test_bit (get_attacks mv g (get_opposite_color c)) (king_sq c - 2) = false ∧
       test_bit (g.board.black ||| g.board.white) (king_sq c - 1) = false ∧
       test_bit (g.board.black ||| g.board.white) (king_sq c - 2) = false ∧
       test_bit (g.board.black ||| g.board.white) (king_sq c - 3) = false) := by
  rw [castling_appendix_append, List.drop_left, mem_castling, ← long_castle_ok_iff]
  have hk := king_sq_bounds c
  constructor
  · rintro (⟨he, _⟩ | ⟨_, hok⟩)
    · exfalso
      have hdst : king_sq c - 2 = king_sq c + 2 := congrArg move.destination he
      omega
    · exact hok
  · intro hok
    exact Or.inr ⟨rfl, hok⟩

/-- Witness of C7 on `long_game`: the black rook attacks 57 (`k-3`) and the
queen-side move is appended all the same. -/
theorem long_castle_appended_iff_witness :
    test_bit (get_attacks (sample_gen long_pieces) long_game color.black)
      (king_sq color.white - 3) = true ∧
    move.mk (king_sq color.white) (king_sq color.white - 2) none ∈
      (castling_appendix (sample_gen long_pieces) long_game color.white []).drop
        ([] : List move).length :=
  ⟨by decide,
   (long_castle_appended_iff (sample_gen long_pieces) long_game color.white []).mpr
     (by decide)⟩

/-- C8: if `side` holds neither castling right, or its king home square is
attacked by the opponent, `get_moves(side)` is exactly the result of the
per-square loop. -/
theorem castling_skipped (mv : movement) (g : game) (c : color)
    (h : g.castling.get_castle_rights c = (false, false) ∨
      test_bit (get_attacks mv g (get_opposite_color c)) (king_sq c) = true) :
    get_moves mv g c = per_square_loop mv g c := by
  have hnil : castling_appendix mv g c [] = [] := by
    simp only [castling_appendix]
    rcases h with h | h
    · simp [h]
    · simp [h]
  rw [get_moves_eq, hnil]
  cases per_square_loop mv g c <;> simp

/-- Witness of C8 on `check_game`: white holds the king-side right, with 61
and 62 empty and not attacked, but its king is in check. -/
theorem castling_skipped_witness :
    (check_game.castling.get_castle_rights color.white).1 = true ∧
    test_bit (get_attacks (sample_gen check_pieces) check_game color.black)
      (king_sq color.white) = true ∧
    get_moves (sample_gen check_pieces) check_game color.white =
      per_square_loop (sample_gen check_pieces) check_game color.white :=
  ⟨by decide, by decide,
   castling_skipped (sample_gen check_pieces) check_game color.white (Or.inr (by decide))⟩

/-- C9: `get_attacks(side)` is the bitwise OR of the pawn attacks of the
pawns of `side`, the knight generator on its knights, the bishop generator
on its bishops and queens, the rook generator on its rooks and queens, and
the king generator on its king, and of nothing else. -/
theorem get_attacks_eq_union (mv : movement) (g : game) (c : color) :
    get_attacks mv g c =
      mv.get_pawn_attacks (get_colorb g c &&& g.board.pawn) c |||
      mv.get_knight_moves (get_colorb g c &&& g.board.knight) |||
      mv.get_bishop_moves (get_colorb g c &&& (g.board.bishop ||| g.board.queen)) |||
      mv.get_rook_moves (get_colorb g c &&& (g.board.rook ||| g.board.queen)) |||
      mv.get_king_moves (get_colorb g c &&& g.board.king) := by
  simp only [get_attacks, Nat.zero_or]

/-- C10: `under_attack(squares, side)` is true if and only if
`squares & get_attacks(side)` is non-zero, and `under_attack(0, side)` is
false. -/
theorem under_attack_iff (mv : movement) (g : game) (squares : bitboard) (c : color) :
    (under_attack mv g squares c = true ↔ squares &&& get_attacks mv g c ≠ 0) ∧
    under_attack mv g 0 c = false := by
  constructor
  · simp [under_attack]
  · simp [under_attack]

/-- C11: for a square whose piece is a pawn, knight, bishop, rook, queen or
king, `get_moves(square)` returns exactly the output of the generator of
that type on the singleton bitboard of the square (with the colour of the
piece for a pawn); no occupancy mask is applied. -/
theorem get_moves_square_dispatch (mv : movement) (g : game) (i : square) :
    ((g.board.get_piece i).ptype = piece_type.pawn →
      get_moves_square mv g i =
        some (mv.get_pawn_moves (to_bitboard i) (g.board.get_piece i).pcolor)) ∧
    ((g.board.get_piece i).ptype = piece_type.knight →
      get_moves_square mv g i = some (mv.get_knight_moves (to_bitboard i))) ∧
    ((g.board.get_piece i).ptype = piece_type.bishop →
      get_moves_square mv g i = some (mv.get_bishop_moves (to_bitboard i))) ∧
    ((g.board.get_piece i).ptype = piece_type.rook →
      get_moves_square mv g i = some (mv.get_rook_moves (to_bitboard i))) ∧
    ((g.board.get_piece i).ptype = piece_type.queen →
      get_moves_square mv g i = some (mv.get_queen_moves (to_bitboard i))) ∧
    ((g.board.get_piece i).ptype = piece_type.king →
      get_moves_square mv g i = some (mv.get_king_moves (to_bitboard i))) := by
  refine ⟨?_, ?_, ?_, ?_, ?_, ?_⟩ <;> intro h <;> simp only [get_moves_square, h]

/-- Witness of C11 on the initial position, one square per piece type.  The
rook on 56 reaches 57, a square of its own side: nothing is masked. -/
theorem get_moves_square_dispatch_witness :
    get_moves_square (sample_gen initial_pieces) initial_game 48 =
      some ((sample_gen initial_pieces).get_pawn_moves (to_bitboard 48)
        (initial_game.board.get_piece 48).pcolor) ∧
    get_moves_square (sample_gen initial_pieces) initial_game 57 =
      some ((sample_gen initial_pieces).get_knight_moves (to_bitboard 57)) ∧
    get_moves_square (sample_gen initial_pieces) initial_game 58 =
      some ((sample_gen initial_pieces).get_bishop_moves (to_bitboard 58)) ∧
    get_moves_square (sample_gen initial_pieces) initial_game 56 =
      some ((sample_gen initial_pieces).get_rook_moves (to_bitboard 56)) ∧
    get_moves_square (sample_gen initial_pieces) initial_game 59 =
      some ((sample_gen initial_pieces).get_queen_moves (to_bitboard 59)) ∧
    get_moves_square (sample_gen initial_pieces) initial_game 60 =
      some ((sample_gen initial_pieces).get_king_moves (to_bitboard 60)) ∧
    test_bit ((sample_gen initial_pieces).get_rook_moves (to_bitboard 56)) 57 = true ∧
    test_bit (get_colorb initial_game color.white) 57 = true :=
  ⟨(get_moves_square_dispatch (sample_gen initial_pieces) initial_game 48).1 (by decide),
   (get_moves_square_dispatch (sample_gen initial_pieces) initial_game 57).2.1 (by decide),
   (get_moves_square_dispatch (sample_gen initial_pieces) initial_game 58).2.2.1 (by decide),
   (get_moves_square_dispatch (sample_gen initial_pieces) initial_game 56).2.2.2.1
     (by decide),
   (get_moves_square_dispatch (sample_gen initial_pieces) initial_game 59).2.2.2.2.1
     (by decide),
   (get_moves_square_dispatch (sample_gen initial_pieces) initial_game 60).2.2.2.2.2
     (by decide),
   by decide, by decide⟩

/-- C12: `get_moves(square)` reaches the assertion (result `none`) if and
only if the piece type on the square is `empty`, and it returns a bitboard
if and only if the piece type is not `empty`. -/
theorem get_moves_square_fails_iff (mv : movement) (g : game) (i : square) :
    (get_moves_square mv g i = none ↔
      (g.board.get_piece i).ptype = piece_type.empty) ∧
    ((∃ b, get_moves_square mv g i = some b) ↔
      (g.board.get_piece i).ptype ≠ piece_type.empty) := by
  refine ⟨get_moves_square_none_iff mv g i, ?_⟩
  have h := get_moves_square_none_iff mv g i
  constructor
  · rintro ⟨b, hb⟩ he
    rw [h.mpr he] at hb
    exact Option.noConfusion hb
  · intro hne
    cases hg : get_moves_square mv g i with
    | none => exact absurd (h.mp hg) hne
    | some b => exact ⟨b, rfl⟩

/-- Witness of C12 on the initial position: square 30 is empty, square 60
holds the white king. -/
theorem get_moves_square_fails_iff_witness :
    get_moves_square (sample_gen initial_pieces) initial_game 30 = none ∧
    ∃ b, get_moves_square (sample_gen initial_pieces) initial_game 60 = some b :=
  ⟨(get_moves_square_fails_iff (sample_gen initial_pieces) initial_game 30).1.mpr (by decide),
   (get_moves_square_fails_iff (sample_gen initial_pieces) initial_game 60).2.mpr (by decide)⟩

/-- C13, amended: for a side that owns exactly one piece, on square `s`,
whose destination bitboard minus own occupancy is empty, the per-square
loop succeeds and emits nothing; when moreover the side holds no castling
right, or its king home square is attacked, `get_moves(side)` returns the
empty sequence. -/
theorem sole_blocked_piece_moves (mv : movement) (g : game) (c : color) (s : square)
    (mvb : bitboard) (hs : s < 64)
    (hcol : get_colorb g c = to_bitboard s)
    (hmv : get_moves_square mv g s = some mvb)
    (hblocked : mvb &&& bb_not (get_colorb g c) = 0) :
    per_square_loop mv g c = some [] ∧
    ((g.castling.get_castle_rights c = (false, false) ∨
        test_bit (get_attacks mv g (get_opposite_color c)) (king_sq c) = true) →
      get_moves mv g c = some []) := by
  have hocc : ∀ i, test_bit (get_colorb g c) i = true → i = s := by
    intro i hi
    rw [hcol, test_bit_to_bitboard s i hs] at hi
    simpa using hi
  have hok : lookups_ok mv g c (List.range 64) = true := by
    unfold lookups_ok
    rw [List.all_eq_true]
    intro i _
    cases hi : test_bit (get_colorb g c) i with
    | false => rfl
    | true =>
      rw [hocc i hi, hmv]
      rfl
  have hnil : (List.range 64).flatMap (square_moves mv g c) = [] := by
    rw [List.flatMap_eq_nil_iff]
    intro i _
    cases hi : test_bit (get_colorb g c) i with
    | false => exact square_moves_nil_of_not_own mv g c i hi
    | true =>
      apply square_moves_nil_of_blocked
      rw [hocc i hi, masked_moves_of_some mv g c s mvb hmv]
      exact hblocked
  have hloop : per_square_loop mv g c = some [] := by
    rw [per_square_loop_eq, if_pos hok, hnil]
  refine ⟨hloop, ?_⟩
  intro hcond
  have hcs : castling_appendix mv g c [] = [] := by
    simp only [castling_appendix]
    rcases hcond with h | h
    · simp [h]
    · simp [h]
  rw [get_moves_eq, hloop, hcs]
  rfl

/-- Witness of the amended C13 on `blocked_game`: white owns the blocked
pawn on 36 only and holds no right. -/
theorem sole_blocked_piece_moves_witness :
    get_colorb blocked_game color.white = to_bitboard 36 ∧
    get_moves_square (sample_gen blocked_pieces) blocked_game 36 = some 0 ∧
    per_square_loop (sample_gen blocked_pieces) blocked_game color.white = some [] ∧
    get_moves (sample_gen blocked_pieces) blocked_game color.white = some [] :=
  ⟨by decide, by decide,
   (sole_blocked_piece_moves (sample_gen blocked_pieces) blocked_game color.white 36 0
     (by decide) (by decide) (by decide) (by decide)).1,
   (sole_blocked_piece_moves (sample_gen blocked_pieces) blocked_game color.white 36 0
     (by decide) (by decide) (by decide) (by decide)).2 (Or.inl (by decide))⟩

/-- Counterexample to C13 as stated: on `blocked_stale_game` white owns one
piece, the blocked pawn on 36 with no destination, and the rights tracker
grants the king-side right; `get_moves(white)` returns the castling move
`(60, 62)`, not the empty sequence. -/
theorem sole_blocked_piece_counterexample :
    get_colorb blocked_stale_game color.white = to_bitboard 36 ∧
    get_moves_square (sample_gen blocked_pieces) blocked_stale_game 36 = some 0 ∧
    0 &&& bb_not (get_colorb blocked_stale_game color.white) = 0 ∧
    get_moves (sample_gen blocked_pieces) blocked_stale_game color.white =
      some [move.mk 60 62 none] := by
  decide

/-- C14: for a square `i` of `side` and a square `p` set in
`get_moves(i) & ~occupancy(side)`, the output of `get_moves(side)` contains
a move with origin `i` and destination `p`: the plain move, or all four
promotion moves. -/
theorem get_moves_complete (mv : movement) (g : game) (c : color) (ms : List move)
    (i p : square) (mvb : bitboard) (hi : i < 64) (hp : p < 64)
    (hocc : test_bit (get_colorb g c) i = true)
    (hmv : get_moves_square mv g i = some mvb)
    (hdest : test_bit (mvb &&& bb_not (get_colorb g c)) p = true)
    (h : get_moves mv g c = some ms) :
    (∃ m ∈ ms, m.origin = i ∧ m.destination = p) ∧
    (move.mk i p none ∈ ms ∨
      ∀ t ∈ pawn_promotions, move.mk i p (some (piece.mk c t)) ∈ ms) := by
  obtain ⟨lp, hl, rfl⟩ := get_moves_some mv g c ms h
  have hmask : test_bit (masked_moves mv g c i) p = true := by
    rw [masked_moves_of_some mv g c i mvb hmv]; exact hdest
  have hin : ∀ m ∈ dest_moves g c i p, m ∈ lp ++ castling_appendix mv g c [] := by
    intro m hm
    apply List.mem_append_left
    rw [per_square_loop_some mv g c lp hl]
    exact mem_loop_of_dest mv g c i p m hi hp hocc hmask hm
  by_cases hc : (get_row p = last_row c && test_bit g.board.pawn i) = true
  · have hd : dest_moves g c i p = promotion_moves c i p := by
      unfold dest_moves; rw [if_pos hc]
    have hall : ∀ t ∈ pawn_promotions,
        move.mk i p (some (piece.mk c t)) ∈ lp ++ castling_appendix mv g c [] := by
      intro t ht
      apply hin
      rw [hd]
      exact List.mem_map.mpr ⟨t, ht, rfl⟩
    exact ⟨⟨_, hall piece_type.knight (by simp [pawn_promotions]), rfl, rfl⟩, Or.inr hall⟩
  · have hd : dest_moves g c i p = [move.mk i p none] := by
      unfold dest_moves; rw [if_neg hc]
    have hplain : move.mk i p none ∈ lp ++ castling_appendix mv g c [] := by
      apply hin; rw [hd]; exact List.mem_singleton.mpr rfl
    exact ⟨⟨_, hplain, rfl, rfl⟩, Or.inl hplain⟩

/-- Witness of C14 on `castle_game`: the rook on 63 reaches 62. -/
theorem get_moves_complete_witness :
    get_moves (sample_gen castle_pieces) castle_game color.white = some castle_white_moves ∧
    (∃ m ∈ castle_white_moves, m.origin = 63 ∧ m.destination = 62) ∧
    (move.mk 63 62 none ∈ castle_white_moves ∨
      ∀ t ∈ pawn_promotions,
        move.mk 63 62 (some (piece.mk color.white t)) ∈ castle_white_moves) :=
  ⟨by decide,
   get_moves_complete (sample_gen castle_pieces) castle_game color.white castle_white_moves
     63 62 ((sample_gen castle_pieces).get_rook_moves (to_bitboard 63))
     (by decide) (by decide) (by decide) (by decide) (by decide) (by decide)⟩

/-- C15: when `side` holds neither castling right, the output of
`get_moves(side)` is strictly increasing for (origin, destination,
promotion index), and so has no duplicate. -/
theorem get_moves_strictly_increasing (mv : movement) (g : game) (c : color)
    (ms : List move)
    (hr : g.castling.get_castle_rights c = (false, false))
    (h : get_moves mv g c = some ms) :
    List.Pairwise move_lt ms ∧ List.Nodup ms := by
  obtain ⟨lp, hl, rfl⟩ := get_moves_some mv g c ms h
  have hcs : castling_appendix mv g c [] = [] := by
    simp [castling_appendix, hr]
  rw [hcs, List.append_nil, per_square_loop_some mv g c lp hl]
  have hs := loop_moves_strict mv g c 64
  refine ⟨hs, ?_⟩
  refine List.Pairwise.imp ?_ hs
  intro a b hab e
  subst e
  exact move_lt_irrefl a hab

/-- Witness of C15 on `promo_game`, whose output starts with the four
promotions of the pawn on 12. -/
theorem get_moves_strictly_increasing_witness :
    promo_game.castling.get_castle_rights color.white = (false, false) ∧
    get_moves (sample_gen promo_pieces) promo_game color.white = some promo_white_moves ∧
    List.Pairwise move_lt promo_white_moves ∧ List.Nodup promo_white_moves :=
  ⟨by decide, by decide,
   get_moves_strictly_increasing (sample_gen promo_pieces) promo_game color.white
     promo_white_moves (by decide) (by decide)⟩

/-- C16: for a square `i` of `side` and a destination `p` set in
`get_moves(i) & ~occupancy(side)`, if `i` is not in the pawn bitboard or the
row of `p` is not the promotion rank of `side`, the moves emitted by the
per-square loop for `(i, p)` are exactly the one plain move; and a move
emitted by the loop carries a promotion if and only if its origin is in the
pawn bitboard and its destination is on the promotion rank. -/
theorem loop_plain_move (mv : movement) (g : game) (c : color) (lp : List move)
    (hl : per_square_loop mv g c = some lp) :
    (∀ (i p : square) (mvb : bitboard), i < 64 → p < 64 →
      test_bit (get_colorb g c) i = true →
      get_moves_square mv g i = some mvb →
      test_bit (mvb &&& bb_not (get_colorb g c)) p = true →
      (test_bit g.board.pawn i = false ∨ get_row p ≠ last_row c) →
      lp.filter (fun m => decide (m.origin = i ∧ m.destination = p)) =
        [move.mk i p none]) ∧
    (∀ m ∈ lp, m.promotion ≠ none ↔
      (test_bit g.board.pawn m.origin = true ∧ get_row m.destination = last_row c)) := by
  constructor
  · intro i p mvb hi hp hocc hmv hdest hcond
    have hmask : test_bit (masked_moves mv g c i) p = true := by
      rw [masked_moves_of_some mv g c i mvb hmv]; exact hdest
    rw [per_square_loop_some mv g c lp hl, filter_loop_moves mv g c i p hi hp hocc hmask]
    unfold dest_moves
    rw [if_neg]
    rcases hcond with h | h
    · simp [h]
    · simp [h]
  · intro m hm
    have h1 := mem_loop mv g c lp m hl hm
    have h2 := mem_square_moves mv g c m.origin m h1.2
    exact promotion_of_mem_dest_moves g c m.origin m.destination m h2.2.2.2.2

/-- Witness of C16 on `promo_game`: the king move `(60, 52)` is emitted once
and plain, and the knight promotion of the pawn on 12 carries a promotion. -/
theorem loop_plain_move_witness :
    per_square_loop (sample_gen promo_pieces) promo_game color.white =
      some promo_white_moves ∧
    promo_white_moves.filter (fun m => decide (m.origin = 60 ∧ m.destination = 52)) =
      [move.mk 60 52 none] ∧
    ((move.mk 12 4 (some (piece.mk color.white piece_type.knight))).promotion ≠ none ↔
      (test_bit promo_game.board.pawn 12 = true ∧ get_row 4 = last_row color.white)) :=
  ⟨by decide,
   (loop_plain_move (sample_gen promo_pieces) promo_game color.white promo_white_moves
     (by decide)).1 60 52 ((sample_gen promo_pieces).get_king_moves (to_bitboard 60))
     (by decide) (by decide) (by decide) (by decide) (by decide) (Or.inl (by decide)),
   (loop_plain_move (sample_gen promo_pieces) promo_game color.white promo_white_moves
     (by decide)).2 (move.mk 12 4 (some (piece.mk color.white piece_type.knight)))
     (by decide)⟩

/-- C17: when every square set in the occupancy bitboard of `side` holds a
non-empty piece in the piece table, every per-square lookup made by
`get_moves(side)` succeeds and `get_moves(side)` returns a move sequence. -/
theorem get_moves_lookups_succeed (mv : movement) (g : game) (c : color)
    (h : ∀ i, i < 64 → test_bit (get_colorb g c) i = true →
      (g.board.get_piece i).ptype ≠ piece_type.empty) :
    (∀ i, i < 64 → test_bit (get_colorb g c) i = true →
      ∃ b, get_moves_square mv g i = some b) ∧
    ∃ ms, get_moves mv g c = some ms := by
  constructor
  · intro i hi hocc
    have hne := h i hi hocc
    cases hg : get_moves_square mv g i with
    | none => exact absurd ((get_moves_square_none_iff mv g i).mp hg) hne
    | some b => exact ⟨b, rfl⟩
  · have hok : lookups_ok mv g c (List.range 64) = true :=
      (lookups_ok_iff mv g c (List.range 64)).mpr
        (fun i hi hocc => h i (List.mem_range.mp hi) hocc)
    rw [get_moves_eq, per_square_loop_eq, if_pos hok]
    exact ⟨_, rfl⟩

/-- Witness of C17 on the initial position, where `get_moves(white)` returns
20 moves. -/
theorem get_moves_lookups_succeed_witness :
    ((∀ i, i < 64 → test_bit (get_colorb initial_game color.white) i = true →
      ∃ b, get_moves_square (sample_gen initial_pieces) initial_game i = some b) ∧
     ∃ ms, get_moves (sample_gen initial_pieces) initial_game color.white = some ms) ∧
    (get_moves (sample_gen initial_pieces) initial_game color.white).map List.length =
      some 20 :=
  ⟨get_moves_lookups_succeed (sample_gen initial_pieces) initial_game color.white
     (by decide),
   by decide⟩

/-- C18: if the bishop and rook generators distribute over the union of
their input and the queen generator is the union of the two, then
`get_attacks(side)` contains every square of the queen generator applied to
the queens of `side`, and equals the union of the pawn-attack, knight,
bishop, rook, queen and king terms of `side`. -/
theorem queen_coverage (mv : movement) (g : game) (c : color)
    (hB : ∀ a b, mv.get_bishop_moves (a ||| b) = mv.get_bishop_moves a ||| mv.get_bishop_moves b)
    (hR : ∀ a b, mv.get_rook_moves (a ||| b) = mv.get_rook_moves a ||| mv.get_rook_moves b)
    (hQ : ∀ b, mv.get_queen_moves b = mv.get_bishop_moves b ||| mv.get_rook_moves b) :
    (∀ j, test_bit (mv.get_queen_moves (get_colorb g c &&& g.board.queen)) j = true →
      test_bit (get_attacks mv g c) j = true) ∧
    get_attacks mv g c =
      mv.get_pawn_attacks (get_colorb g c &&& g.board.pawn) c |||
      mv.get_knight_moves (get_colorb g c &&& g.board.knight) |||
      mv.get_bishop_moves (get_colorb g c &&& g.board.bishop) |||
      mv.get_rook_moves (get_colorb g c &&& g.board.rook) |||
      mv.get_queen_moves (get_colorb g c &&& g.board.queen) |||
      mv.get_king_moves (get_colorb g c &&& g.board.king) := by
  have heq : get_attacks mv g c =
      mv.get_pawn_attacks (get_colorb g c &&& g.board.pawn) c |||
      mv.get_knight_moves (get_colorb g c &&& g.board.knight) |||
      mv.get_bishop_moves (get_colorb g c &&& g.board.bishop) |||
      mv.get_rook_moves (get_colorb g c &&& g.board.rook) |||
      mv.get_queen_moves (get_colorb g c &&& g.board.queen) |||
      mv.get_king_moves (get_colorb g c &&& g.board.king) := by
    simp only [get_attacks, Nat.zero_or, Nat.and_or_distrib_left, hB, hR, hQ]
    apply Nat.eq_of_testBit_eq
    intro j
    simp only [Nat.testBit_or]
    cases Nat.testBit (mv.get_pawn_attacks (get_colorb g c &&& g.board.pawn) c) j <;>
    cases Nat.testBit (mv.get_knight_moves (get_colorb g c &&& g.board.knight)) j <;>
    cases Nat.testBit (mv.get_bishop_moves (get_colorb g c &&& g.board.bishop)) j <;>
    cases Nat.testBit (mv.get_rook_moves (get_colorb g c &&& g.board.rook)) j <;>
    cases Nat.testBit (mv.get_bishop_moves (get_colorb g c &&& g.board.queen)) j <;>
    cases Nat.testBit (mv.get_rook_moves (get_colorb g c &&& g.board.queen)) j <;>
    cases Nat.testBit (mv.get_king_moves (get_colorb g c &&& g.board.king)) j <;>
    rfl
  refine ⟨?_, heq⟩
  intro j hj
  rw [heq]
  simp only [test_bit_or, hj, Bool.or_true, Bool.true_or]

/-- Witness of C18 on `lone_queen_game` with the sample generators, whose
sliders distribute over union. -/
theorem queen_coverage_witness :
    (∀ j, test_bit ((sample_gen lone_queen_pieces).get_queen_moves
        (get_colorb lone_queen_game color.white &&& lone_queen_game.board.queen)) j = true →
      test_bit (get_attacks (sample_gen lone_queen_pieces) lone_queen_game color.white) j =
        true) ∧
    test_bit (get_attacks (sample_gen lone_queen_pieces) lone_queen_game color.white) 7 =
      true :=
  ⟨(queen_coverage (sample_gen lone_queen_pieces) lone_queen_game color.white
      (fun a b => slider_or _ bishop_dirs a b) (fun a b => slider_or _ rook_dirs a b)
      (fun _ => rfl)).1,
   by decide⟩

/-- C19, amended: for a side that owns exactly one piece, on square `s`, and
generators that return the empty bitboard on the empty bitboard, with the
queen generator the union of the bishop and rook generators: if the piece
is not a pawn, `get_moves(s)` returns `get_attacks(side)`; if it is a pawn,
`get_attacks(side)` is the pawn-attack generator on `s` while `get_moves(s)`
returns the pawn-move generator on `s`. -/
theorem sole_piece_attacks (mv : movement) (g : game) (c : color) (s : square)
    (t : piece_type) (h : sole_piece g c s t)
    (hpa : mv.get_pawn_attacks 0 c = 0) (hkn : mv.get_knight_moves 0 = 0)
    (hbi : mv.get_bishop_moves 0 = 0) (hro : mv.get_rook_moves 0 = 0)
    (hki : mv.get_king_moves 0 = 0)
    (hQ : ∀ b, mv.get_queen_moves b = mv.get_bishop_moves b ||| mv.get_rook_moves b) :
    (t ≠ piece_type.pawn → t ≠ piece_type.empty →
      get_moves_square mv g s = some (get_attacks mv g c)) ∧
    (t = piece_type.pawn →
      get_attacks mv g c = mv.get_pawn_attacks (to_bitboard s) c ∧
      get_moves_square mv g s =
        some (mv.get_pawn_moves (to_bitboard s) (g.board.get_piece s).pcolor)) := by
  obtain ⟨_, _, hty, hu⟩ := h
  have h1 := hu piece_type.pawn
  have h2 := hu piece_type.knight
  have h3 := hu piece_type.bishop
  have h4 := hu piece_type.rook
  have h5 := hu piece_type.queen
  have h6 := hu piece_type.king
  simp only [type_bitboard] at h1 h2 h3 h4 h5 h6
  have hatt : get_attacks mv g c =
      mv.get_pawn_attacks (get_colorb g c &&& g.board.pawn) c |||
      mv.get_knight_moves (get_colorb g c &&& g.board.knight) |||
      mv.get_bishop_moves (get_colorb g c &&& g.board.bishop ||| get_colorb g c &&& g.board.queen) |||
      mv.get_rook_moves (get_colorb g c &&& g.board.rook ||| get_colorb g c &&& g.board.queen) |||
      mv.get_king_moves (get_colorb g c &&& g.board.king) := by
    simp only [get_attacks, Nat.zero_or, Nat.and_or_distrib_left]
  rw [hatt, h1, h2, h3, h4, h5, h6]
  constructor
  · intro hnp hne
    cases t
    · exact absurd rfl hne
    · exact absurd rfl hnp
    all_goals simp [get_moves_square, hty, hpa, hkn, hbi, hro, hki, hQ]
  · intro ht
    subst ht
    simp [get_moves_square, hty, hkn, hbi, hro, hki]

/-- Witness of the amended C19 on `lone_queen_game`: white owns the queen on
35 only. -/
theorem sole_piece_attacks_witness :
    sole_piece lone_queen_game color.white 35 piece_type.queen ∧
    get_moves_square (sample_gen lone_queen_pieces) lone_queen_game 35 =
      some (get_attacks (sample_gen lone_queen_pieces) lone_queen_game color.white) :=
  ⟨⟨by decide, by decide, by decide, fun u => by cases u <;> decide⟩,
   (sole_piece_attacks (sample_gen lone_queen_pieces) lone_queen_game color.white 35
     piece_type.queen ⟨by decide, by decide, by decide, fun u => by cases u <;> decide⟩
     (by decide) (by decide) (by decide) (by decide) (by decide) (fun _ => rfl)).1
     (by decide) (by decide)⟩

/-- Counterexample to C19 as stated: on `lone_pawn_game` white owns the pawn
on 36 only, and the sample generators meet the assumptions of the claim;
`get_moves(36)` is the push to 28 while `get_attacks(white)` is the two
diagonal squares 27 and 29. -/
theorem sole_pawn_attacks_counterexample :
    sole_piece lone_pawn_game color.white 36 piece_type.pawn ∧
    ((sample_gen lone_pawn_pieces).get_pawn_attacks 0 color.white = 0 ∧
     (sample_gen lone_pawn_pieces).get_pawn_moves 0 color.white = 0 ∧
     (sample_gen lone_pawn_pieces).get_knight_moves 0 = 0 ∧
     (sample_gen lone_pawn_pieces).get_bishop_moves 0 = 0 ∧
     (sample_gen lone_pawn_pieces).get_rook_moves 0 = 0 ∧
     (sample_gen lone_pawn_pieces).get_queen_moves 0 = 0 ∧
     (sample_gen lone_pawn_pieces).get_king_moves 0 = 0) ∧
    (∀ b, (sample_gen lone_pawn_pieces).get_queen_moves b =
      (sample_gen lone_pawn_pieces).get_bishop_moves b |||
        (sample_gen lone_pawn_pieces).get_rook_moves b) ∧
    get_moves_square (sample_gen lone_pawn_pieces) lone_pawn_game 36 =
      some (to_bitboard 28) ∧
    get_attacks (sample_gen lone_pawn_pieces) lone_pawn_game color.white =
      to_bitboard 27 ||| to_bitboard 29 ∧
    to_bitboard 28 ≠ to_bitboard 27 ||| to_bitboard 29 :=
  ⟨⟨by decide, by decide, by decide, fun u => by cases u <;> decide⟩,
   by decide, fun _ => rfl, by decide, by decide, by decide⟩

end abra
